import Mathlib

/-!
# Verification of the rust-code-analysis post-processing script

Shallow embedding of `src/rust-code-analysis.py`, a three-stage pipeline:
extract per-file metric mappings from JSON documents (`analyze_file`),
merge them into one aggregated mapping (`append_metrics`), and report
descriptive statistics per (group, name) series (`analyze_files`).

Python dictionaries are modelled as insertion-ordered association lists
(`List (String × _)`); JSON numbers are modelled as rationals; Python
exceptions (TypeError, KeyError, ValueError, StatisticsError) are modelled
with `Except PyErr`.
-/

set_option maxHeartbeats 1000000

/-- A parsed JSON value, as produced by `json.load`. Objects keep key order;
`json.load` never yields duplicate keys, which theorems assume where needed. -/
inductive JValue where
  | null : JValue
  | bool : Bool → JValue
  | num : ℚ → JValue
  | str : String → JValue
  | arr : List JValue → JValue
  | obj : List (String × JValue) → JValue

/-- One metric series: the list accumulated at `ret[k1][k2]`. -/
abbrev Series := List JValue

/-- One metric group: the inner dict `ret[k1]`, name → series. -/
abbrev GroupMap := List (String × Series)

/-- The aggregated mapping `ret`: group → name → series. -/
abbrev Agg := List (String × GroupMap)

/-- Python dict lookup `m[k]` as an option (first matching key). -/
def alistLookup {α : Type} : List (String × α) → String → Option α
  | [], _ => none
  | (k, v) :: rest, key => if k = key then some v else alistLookup rest key

/-- Python dict assignment `m[k] = v`: replace in place if the key is
present, else append the new key at the end (insertion order). -/
def alistUpdate {α : Type} : List (String × α) → String → α → List (String × α)
  | [], key, val => [(key, val)]
  | (k, v) :: rest, key, val =>
    if k = key then (k, val) :: rest else (k, v) :: alistUpdate rest key val

/-- The keys of a dict, in order. -/
def alistKeys {α : Type} (m : List (String × α)) : List String :=
  m.map Prod.fst

/-- The elements a source value contributes to a series: the body of
`if isinstance(v2, list): ret[k1][k2] += v2 else: ret[k1][k2].append(v2)`. -/
def valueAsList : JValue → List JValue
  | .arr l => l
  | v => [v]

/-- The inner loop of `append_metrics` over one group value `v1.items()`:
for each (k2, v2), ensure `ret[k1][k2]` exists (default `[]`), then extend
with `v2` if it is a list, else append `v2`. -/
def appendGroup (g : GroupMap) (items : List (String × JValue)) : GroupMap :=
  items.foldl
    (fun g p =>
      alistUpdate g p.1 ((alistLookup g p.1).getD [] ++ valueAsList p.2)) g

/-- `append_metrics(ret, metrics)` from the source: iterate `metrics.items()`;
skip any value that is not a dict; ensure `ret[k1]` exists (default `{}`);
merge the group items. -/
def append_metrics (ret : Agg) (metrics : List (String × JValue)) : Agg :=
  metrics.foldl
    (fun ret p =>
      match p.2 with
      | .obj items => alistUpdate ret p.1 (appendGroup ((alistLookup ret p.1).getD []) items)
      | _ => ret) ret

/-- The series stored for (group, name), when both keys are present. -/
def seriesAt (a : Agg) (g n : String) : Option Series :=
  (alistLookup a g).bind (fun grp => alistLookup grp n)

/-- Well-formed mapping: keys are duplicate-free at both levels, as Python
dicts guarantee. -/
def AggWF (a : Agg) : Prop :=
  (a.map Prod.fst).Nodup ∧ ∀ p ∈ a, (p.2.map Prod.fst).Nodup

instance : DecidablePred AggWF := fun a => by
  unfold AggWF; infer_instance

deriving instance DecidableEq for Except

/-- The Python exceptions the pipeline can raise. -/
inductive PyErr where
  | typeError : String → PyErr
  | keyError : String → PyErr
  | valueError : String → PyErr
  | statisticsError : String → PyErr
deriving DecidableEq, Repr

/-- The value of the Python test `key in v`, by the runtime type of `v`:
key membership for a dict, element equality for a list, substring test for a
string, and a TypeError for null, booleans and numbers (not iterable). -/
def pyContains (v : JValue) (key : String) : Except PyErr Bool :=
  match v with
  | .obj o => .ok (o.any (fun p => p.1 = key))
  | .arr l => .ok (l.any (fun e => match e with | .str s => s = key | _ => false))
  | .str s => .ok (decide (key.toList <:+: s.toList))
  | _ => .error (.typeError "argument is not iterable")

/-- The Python subscript `v[key]` with a string key: dict lookup (KeyError
when absent), TypeError for every other runtime type. -/
def pyGetItem (v : JValue) (key : String) : Except PyErr JValue :=
  match v with
  | .obj o =>
    match alistLookup o key with
    | some x => .ok x
    | none => .error (.keyError key)
  | _ => .error (.typeError "indices must be integers")

/-- The sequence produced by Python iteration `for x in v`: the elements of
a list, the keys of a dict, the characters of a string, a TypeError
otherwise. -/
def pyIter (v : JValue) : Except PyErr (List JValue) :=
  match v with
  | .arr l => .ok l
  | .obj o => .ok (o.map (fun p => .str p.1))
  | .str s => .ok (s.toList.map (fun c => .str (String.mk [c])))
  | _ => .error (.typeError "object is not iterable")

/-- Left fold over a list in the `Except` monad, stopping at the first
error: the sequential-loop-with-mutable-state pattern of the source. -/
def exFoldl {σ α ε : Type} (f : σ → α → Except ε σ) : σ → List α → Except ε σ
  | s, [] => .ok s
  | s, x :: xs =>
    match f s x with
    | .error e => .error e
    | .ok s2 => exFoldl f s2 xs

/-- The body of the inner loop of `analyze_file`, for one element `s2` of a
nested spaces list: skip it unless it has a `metrics` key whose value is a
dict, else merge that dict into `ret`. -/
def analyzeInner (ret : Agg) (s2 : JValue) : Except PyErr Agg :=
  match pyContains s2 "metrics" with
  | .error e => .error e
  | .ok false => .ok ret
  | .ok true =>
    match pyGetItem s2 "metrics" with
    | .error e => .error e
    | .ok metrics =>
      match metrics with
      | .obj mo => .ok (append_metrics ret mo)
      | _ => .ok ret

/-- The body of the outer loop of `analyze_file`, for one element `s1` of
the top-level spaces list: skip it unless it has a `spaces` key, else
iterate its nested spaces. -/
def analyzeOuter (ret : Agg) (s1 : JValue) : Except PyErr Agg :=
  match pyContains s1 "spaces" with
  | .error e => .error e
  | .ok false => .ok ret
  | .ok true =>
    match pyGetItem s1 "spaces" with
    | .error e => .error e
    | .ok sp1 =>
      match pyIter sp1 with
      | .error e => .error e
      | .ok l2 => exFoldl analyzeInner ret l2

/-- `analyze_file` from the source, applied to the parsed document `d`:
return `{}` when `spaces not in d`; otherwise walk the two-level spaces
structure merging every well-typed metrics dict. -/
def analyze_file (d : JValue) : Except PyErr Agg :=
  match pyContains d "spaces" with
  | .error e => .error e
  | .ok false => .ok []
  | .ok true =>
    match pyGetItem d "spaces" with
    | .error e => .error e
    | .ok spaces =>
      match pyIter spaces with
      | .error e => .error e
      | .ok l1 => exFoldl analyzeOuter [] l1

/-- A per-file result viewed as a source for `append_metrics`: in
`analyze_files` the per-file dict-of-dict-of-list is passed back through
`append_metrics`, so each group becomes a dict value and each series a
list value. -/
def aggToMetrics (a : Agg) : List (String × JValue) :=
  a.map (fun p => (p.1, .obj (p.2.map (fun q => (q.1, .arr q.2)))))

/-- One iteration of the aggregation loop of `analyze_files`:
`data = analyze_file(filename); append_metrics(ret, data)`. -/
def aggStep (ret : Agg) (d : JValue) : Except PyErr Agg :=
  match analyze_file d with
  | .error e => .error e
  | .ok data => .ok (append_metrics ret (aggToMetrics data))

/-- The aggregation loop of `analyze_files`: fold every parsed document
through `analyze_file` and merge each result into the shared mapping. -/
def aggregate (docs : List JValue) : Except PyErr Agg :=
  exFoldl aggStep [] docs

/-- `sorted(v2)` on a numeric series: the ascending sorted copy. -/
def pySorted (l : List ℚ) : List ℚ :=
  l.insertionSort (· ≤ ·)

/-- Python `min(v2)`: the least element; ValueError on an empty sequence. -/
def pyMin : List ℚ → Except PyErr ℚ
  | [] => .error (.valueError "min arg is an empty sequence")
  | x :: xs => .ok (xs.foldl min x)

/-- Python `max(v2)`: the greatest element; ValueError on an empty
sequence. -/
def pyMax : List ℚ → Except PyErr ℚ
  | [] => .error (.valueError "max arg is an empty sequence")
  | x :: xs => .ok (xs.foldl max x)

/-- `statistics.mean(v2)`: the arithmetic mean; StatisticsError on empty
data. -/
def pyMean (l : List ℚ) : Except PyErr ℚ :=
  if l.length = 0 then .error (.statisticsError "mean requires at least one data point")
  else .ok (l.sum / l.length)

/-- `statistics.median(v2)`: sort, then take the middle element for odd
length or the average of the two middle elements for even length;
StatisticsError on empty data. -/
def pyMedian (l : List ℚ) : Except PyErr ℚ :=
  let s := pySorted l
  let n := s.length
  if n = 0 then .error (.statisticsError "no median for empty data")
  else if n % 2 = 1 then .ok (s.getD (n / 2) 0)
  else .ok ((s.getD (n / 2 - 1) 0 + s.getD (n / 2) 0) / 2)

/-- The square of `statistics.stdev(v2)`: the sample variance
`Σ (x − mean)² / (count − 1)`; StatisticsError when fewer than two data
points. `stdev` itself is the (generally irrational) square root of this,
so claims about its rendered value are phrased through the square
(see `stdevRendersTo`). The error behaviour is identical. -/
def pyStdevSq (l : List ℚ) : Except PyErr ℚ :=
  if l.length < 2 then .error (.statisticsError "stdev requires at least two data points")
  else
    let m := l.sum / l.length
    .ok ((l.map (fun x => (x - m) ^ 2)).sum / ((l.length : ℚ) - 1))

/-- The six figures of one report row, in source order. `stdevSq` stands
for the square of the reported standard deviation. -/
structure StatRow where
  minimum : ℚ
  median : ℚ
  mean : ℚ
  stdevSq : ℚ
  maximum : ℚ
  count : ℕ
deriving DecidableEq, Repr

/-- The per-row computation of `analyze_files`, in source order:
`v2 = sorted(v2); minimum = min(v2); maximum = max(v2); mean; median;
std_dev; length = len(v2)` — so an empty series fails at `min` first, and
a one-element series fails at `stdev`. -/
def seriesStats (l : List ℚ) : Except PyErr StatRow :=
  let v2 := pySorted l
  match pyMin v2 with
  | .error e => .error e
  | .ok minimum =>
    match pyMax v2 with
    | .error e => .error e
    | .ok maximum =>
      match pyMean v2 with
      | .error e => .error e
      | .ok mean =>
        match pyMedian v2 with
        | .error e => .error e
        | .ok median =>
          match pyStdevSq v2 with
          | .error e => .error e
          | .ok sd => .ok ⟨minimum, median, mean, sd, maximum, v2.length⟩

/-- A series all of whose observations are numbers, as rationals; `none`
as soon as one observation is not a number. -/
def asNums : List JValue → Option (List ℚ)
  | [] => some []
  | .num q :: rest => (asNums rest).map (q :: ·)
  | _ => none

/-- Row statistics on a raw JSON series: on an all-numeric series exactly
`seriesStats`; a series with a non-numeric member makes Python raise a
TypeError at one of `sorted`, `mean` or `stdev` (which one depends on the
mix of types), collapsed here to a single TypeError since no claim
distinguishes them. -/
def seriesStatsJ (l : List JValue) : Except PyErr StatRow :=
  match asNums l with
  | some qs => seriesStats qs
  | none => .error (.typeError "unorderable or non-numeric data")

/-- Map in the `Except` monad, stopping at the first error: the
row-printing loop of `analyze_files`. -/
def exMapList {α β ε : Type} (f : α → Except ε β) : List α → Except ε (List β)
  | [] => .ok []
  | x :: xs =>
    match f x with
    | .error e => .error e
    | .ok y =>
      match exMapList f xs with
      | .error e => .error e
      | .ok ys => .ok (y :: ys)

/-- The (group, name, series) triples of the aggregated mapping, in the
iteration order of the two nested dicts (the two nested report loops). -/
def aggEntries : Agg → List (String × String × Series)
  | [] => []
  | p :: rest => p.2.map (fun q => (p.1, q.1, q.2)) ++ aggEntries rest

/-- The data rows of the report, in order: one row per (group, name) pair
of the aggregated mapping, each carrying its six statistics; the first
statistics failure aborts the report. -/
def reportRowsJ (a : Agg) : Except PyErr (List (String × String × StatRow)) :=
  exMapList
    (fun t =>
      match seriesStatsJ t.2.2 with
      | .error e => .error e
      | .ok r => .ok (t.1, t.2.1, r))
    (aggEntries a)

/-- `analyze_files` on the parsed documents of the discovered files, in
discovery order: aggregate, then render the rows. -/
def analyze_files (docs : List JValue) : Except PyErr (List (String × String × StatRow)) :=
  match aggregate docs with
  | .error e => .error e
  | .ok ret => reportRowsJ ret

/-- The reported standard deviation, printed with one decimal place, reads
`d` exactly when `√ stdevSq` lies in the half-open rounding interval
around `d`, i.e. `(d − 1/20)² ≤ stdevSq < (d + 1/20)²` (for the values at
hand no tie occurs, so round-half-even never matters). Stated on the
square to stay within `ℚ`. -/
def stdevRendersTo (stdevSq d : ℚ) : Prop :=
  0 ≤ d - 1/20 ∧ (d - 1/20) ^ 2 ≤ stdevSq ∧ stdevSq < (d + 1/20) ^ 2

instance (x d : ℚ) : Decidable (stdevRendersTo x d) := by
  unfold stdevRendersTo; infer_instance

/-- Duplicate-free keys, the guarantee every Python dict gives. -/
def NodupKeys {α : Type} (m : List (String × α)) : Prop :=
  (m.map Prod.fst).Nodup

/-- The effect of one `append_metrics` call on the group stored under one
key: replaced by the merged group when the source holds a dict there,
untouched when the source lacks the key or holds a non-dict. -/
def groupStep (old : Option GroupMap) (v : Option JValue) : Option GroupMap :=
  match v with
  | some (.obj items) => some (appendGroup (old.getD []) items)
  | _ => old

/-- The effect of one `append_metrics` call on the series stored under one
(group, name) pair: extended by the source value when present, untouched
otherwise. -/
def seriesStep (old : Option Series) (v : Option JValue) : Option Series :=
  match v with
  | some v => some (old.getD [] ++ valueAsList v)
  | none => old

/-- The leaf value a source mapping supplies for (group, name): the value
under the name key, provided the group value is a dict. -/
def sourceValueAt (metrics : List (String × JValue)) (g n : String) : Option JValue :=
  match alistLookup metrics g with
  | some (.obj items) => alistLookup items n
  | _ => none

/-- A well-formed source for `append_metrics`: duplicate-free keys at the
top level and inside every dict value, as holds for any mapping coming
out of `json.load`. -/
def MetricsWF (m : List (String × JValue)) : Prop :=
  NodupKeys m ∧ ∀ p ∈ m, ∀ items, p.2 = .obj items → NodupKeys items

/-- Every series in the mapping holds at least one observation. -/
def SeriesNonempty (a : Agg) : Prop :=
  ∀ p ∈ a, ∀ q ∈ p.2, q.2 ≠ []

/-- No dict value of the source carries an empty list as a leaf value. -/
def SrcNoEmptyList (m : List (String × JValue)) : Prop :=
  ∀ p ∈ m, ∀ items, p.2 = .obj items → ∀ q ∈ items, q.2 ≠ .arr []

/-- Decidability of a property of all dict bodies a value may have (a
non-dict value satisfies it vacuously). -/
instance instDecForallObj (P : List (String × JValue) → Prop) [DecidablePred P] :
    (v : JValue) → Decidable (∀ items, v = .obj items → P items)
  | .obj its =>
    if h : P its then
      .isTrue (fun items heq => by injection heq with h2; exact h2 ▸ h)
    else .isFalse (fun hc => h (hc its rfl))
  | .null => .isTrue (fun items heq => by cases heq)
  | .bool b => .isTrue (fun items heq => by cases heq)
  | .num q => .isTrue (fun items heq => by cases heq)
  | .str s => .isTrue (fun items heq => by cases heq)
  | .arr l => .isTrue (fun items heq => by cases heq)

instance instDecEqArrNil : (v : JValue) → Decidable (v = .arr [])
  | .arr [] => .isTrue rfl
  | .arr (x :: xs) => .isFalse (fun h => by injection h with h2; cases h2)
  | .null => .isFalse (fun h => by cases h)
  | .bool b => .isFalse (fun h => by cases h)
  | .num q => .isFalse (fun h => by cases h)
  | .str s => .isFalse (fun h => by cases h)
  | .obj o => .isFalse (fun h => by cases h)

instance : DecidablePred MetricsWF := fun m => by
  unfold MetricsWF NodupKeys
  infer_instance

instance : DecidablePred SrcNoEmptyList := fun m => by
  unfold SrcNoEmptyList
  infer_instance

/-- The (group, name) pairs of the aggregated mapping, in report order. -/
def aggPairs : Agg → List (String × String)
  | [] => []
  | p :: rest => p.2.map (fun q => (p.1, q.1)) ++ aggPairs rest

/-- The series stored for (group, name), with `[]` for an absent pair. -/
def seriesAtD (a : Agg) (g n : String) : Series :=
  (seriesAt a g n).getD []

/-- The series the processing of one document contributes to the
(group, name) pair, `[]` when extraction fails or lacks the pair. -/
def fileSeriesD (d : JValue) (g n : String) : Series :=
  match analyze_file d with
  | .ok fa => seriesAtD fa g n
  | .error _ => []

/-! ### Concrete fixtures used by the witnesses -/

/-- Witness destination: one group with one one-element series. -/
def wRet2 : Agg := [("g", [("n", [.num 1])])]

/-- Witness source: a dict group with a sequence leaf and a scalar leaf,
plus a non-dict top-level value. -/
def wSrc2 : List (String × JValue) :=
  [("g", .obj [("n", .arr [.num 2]), ("m", .num 7)]), ("h", .str "skip")]

/-- Witness destination for the frame property. -/
def wRet9 : Agg := [("g", [("m", [.num 1]), ("n", [.num 2])])]

/-- Witness source supplying only ("g", "n"). -/
def wSrc9 : List (String × JValue) := [("g", .obj [("n", .num 5)])]

/-- Witness source with a string leaf. -/
def wSrc10 : List (String × JValue) := [("g", .obj [("n", .str "oops")])]

/-- A document whose metrics hold an empty list as a leaf value. -/
def wDocEmptyLeaf : JValue :=
  .obj [("spaces", .arr [.obj [("spaces", .arr [.obj [("metrics",
    .obj [("g", .obj [("n", .arr [])])])]])]])]

/-- Witness sources without empty-sequence leaves. -/
def wSources3 : List (List (String × JValue)) :=
  [[("g", .obj [("n", .num 3)])], [("g", .obj [("n", .arr [.num 4, .num 5])])]]

/-- A witness object document without a "spaces" key. -/
def wObj5 : List (String × JValue) := [("other", .num 1)]

/-- Two witness per-file results sharing the pair ("g", "n"). -/
def wAgg6a : Agg := [("g", [("n", [.num 1])])]

/-- Second witness per-file result for the shared pair. -/
def wAgg6b : Agg := [("g", [("n", [.num 2, .num 3])])]

/-- Witness mapping for the short-series failure: a one-observation series
and a two-observation series. -/
def wAgg4 : Agg := [("g", [("n", [.num 1])]), ("h", [("m", [.num 1, .num 2])])]

/-- Witness mapping whose series all carry two observations. -/
def wAgg4b : Agg := [("g", [("n", [.num 1, .num 3])])]

/-- The mapping holding one empty series. -/
def wAggEmptySeries : Agg := [("g", [("n", [])])]

/-- A witness document carrying one two-observation series. -/
def wDoc7 : JValue :=
  .obj [("spaces", .arr [.obj [("spaces", .arr [.obj [("metrics",
    .obj [("nom", .obj [("total", .arr [.num 1, .num 2])])])]])]])]

/-- A witness document with group "a", name "x". -/
def wDocA : JValue :=
  .obj [("spaces", .arr [.obj [("spaces", .arr [.obj [("metrics",
    .obj [("a", .obj [("x", .arr [.num 1, .num 2])])])]])]])]

/-- A witness document with group "b", name "y". -/
def wDocB : JValue :=
  .obj [("spaces", .arr [.obj [("spaces", .arr [.obj [("metrics",
    .obj [("b", .obj [("y", .arr [.num 1, .num 2])])])]])]])]

/-- The number of data rows carrying a given (group, name) pair. -/
def pairCount (rows : List (String × String × StatRow)) (g n : String) : ℕ :=
  (rows.filter (fun r => r.1 = g ∧ r.2.1 = n)).length

/-! ### Association-list laws -/

theorem alistLookup_nil {α : Type} (k : String) :
    alistLookup ([] : List (String × α)) k = none := rfl

theorem alistLookup_cons {α : Type} (k0 : String) (v0 : α) (rest : List (String × α)) (k : String) :
    alistLookup ((k0, v0) :: rest) k = if k0 = k then some v0 else alistLookup rest k := rfl

theorem alistUpdate_cons {α : Type} (k0 : String) (v0 : α) (rest : List (String × α)) (k : String) (v : α) :
    alistUpdate ((k0, v0) :: rest) k v
      = if k0 = k then (k0, v) :: rest else (k0, v0) :: alistUpdate rest k v := rfl

theorem alistLookup_update_self {α : Type} (m : List (String × α)) (k : String) (v : α) :
    alistLookup (alistUpdate m k v) k = some v := by
  induction m with
  | nil => simp [alistUpdate, alistLookup]
  | cons p rest ih =>
    obtain ⟨k0, v0⟩ := p
    by_cases h : k0 = k
    · simp [alistUpdate_cons, h, alistLookup_cons]
    · simp [alistUpdate_cons, h, alistLookup_cons, ih]

theorem alistLookup_update_ne {α : Type} (m : List (String × α)) (k key : String) (v : α)
    (h : k ≠ key) :
    alistLookup (alistUpdate m k v) key = alistLookup m key := by
  induction m with
  | nil => simp [alistUpdate, alistLookup_cons, alistLookup_nil, h]
  | cons p rest ih =>
    obtain ⟨k0, v0⟩ := p
    by_cases h0 : k0 = k
    · subst h0
      simp [alistUpdate_cons, alistLookup_cons, h]
    · simp [alistUpdate_cons, h0, alistLookup_cons, ih]

theorem alistLookup_eq_none_iff {α : Type} (m : List (String × α)) (k : String) :
    alistLookup m k = none ↔ k ∉ alistKeys m := by
  induction m with
  | nil => simp [alistLookup_nil, alistKeys]
  | cons p rest ih =>
    obtain ⟨k0, v0⟩ := p
    by_cases h : k0 = k
    · subst h
      simp [alistLookup_cons, alistKeys]
    · simp only [alistLookup_cons, if_neg h, alistKeys, List.map_cons, List.mem_cons, ih]
      constructor
      · intro hn hc
        rcases hc with hc | hc
        · exact h hc.symm
        · exact hn hc
      · intro hn hc
        exact hn (Or.inr hc)

theorem alistLookup_isSome_iff {α : Type} (m : List (String × α)) (k : String) :
    (alistLookup m k).isSome = true ↔ k ∈ alistKeys m := by
  have h := alistLookup_eq_none_iff m k
  cases hl : alistLookup m k with
  | none =>
    simp only [hl, true_iff] at h
    simp [h]
  | some v =>
    simp only [hl] at h
    simp only [Option.isSome_some, true_iff]
    by_contra hc
    exact absurd (h.mpr hc) (by simp)

theorem alistLookup_mem {α : Type} {m : List (String × α)} {k : String} {v : α}
    (h : alistLookup m k = some v) : (k, v) ∈ m := by
  induction m with
  | nil => simp [alistLookup_nil] at h
  | cons p rest ih =>
    obtain ⟨k0, v0⟩ := p
    by_cases h0 : k0 = k
    · subst h0
      rw [alistLookup_cons, if_pos rfl] at h
      cases h
      exact List.mem_cons_self _ _
    · rw [alistLookup_cons, if_neg h0] at h
      exact List.mem_cons_of_mem _ (ih h)

theorem alistKeys_update_of_mem {α : Type} (m : List (String × α)) (k : String) (v : α)
    (h : k ∈ alistKeys m) : alistKeys (alistUpdate m k v) = alistKeys m := by
  induction m with
  | nil => simp [alistKeys] at h
  | cons p rest ih =>
    obtain ⟨k0, v0⟩ := p
    by_cases h0 : k0 = k
    · simp [alistUpdate_cons, h0, alistKeys]
    · simp only [alistKeys, List.map_cons, List.mem_cons] at h
      rcases h with h | h
      · exact absurd h.symm h0
      · rw [alistUpdate_cons, if_neg h0]
        simp only [alistKeys, List.map_cons, List.cons.injEq, true_and]
        exact ih h

theorem alistKeys_update_of_not_mem {α : Type} (m : List (String × α)) (k : String) (v : α)
    (h : k ∉ alistKeys m) : alistKeys (alistUpdate m k v) = alistKeys m ++ [k] := by
  induction m with
  | nil => simp [alistUpdate, alistKeys]
  | cons p rest ih =>
    obtain ⟨k0, v0⟩ := p
    simp only [alistKeys, List.map_cons, List.mem_cons] at h
    push_neg at h
    rw [alistUpdate_cons, if_neg (Ne.symm h.1)]
    simp only [alistKeys, List.map_cons, List.cons_append, List.cons.injEq, true_and]
    exact ih h.2

theorem nodup_alistKeys_update {α : Type} (m : List (String × α)) (k : String) (v : α)
    (h : (alistKeys m).Nodup) : (alistKeys (alistUpdate m k v)).Nodup := by
  by_cases hk : k ∈ alistKeys m
  · rw [alistKeys_update_of_mem m k v hk]; exact h
  · rw [alistKeys_update_of_not_mem m k v hk]
    simp [List.nodup_append, h, hk]

theorem mem_alistUpdate {α : Type} {m : List (String × α)} {k : String} {v : α}
    {p : String × α} (h : p ∈ alistUpdate m k v) : p ∈ m ∨ p = (k, v) := by
  induction m with
  | nil => simp [alistUpdate] at h; simp [h]
  | cons q rest ih =>
    obtain ⟨k0, v0⟩ := q
    by_cases h0 : k0 = k
    · subst h0
      simp [alistUpdate_cons] at h
      rcases h with h | h
      · simp [h]
      · simp [h]
    · simp [alistUpdate_cons, h0] at h
      rcases h with h | h
      · simp [h]
      · rcases ih h with h2 | h2
        · simp [h2]
        · simp [h2]

/-! ### Characterizing one merge -/

theorem appendGroup_nil (g : GroupMap) : appendGroup g [] = g := rfl

theorem appendGroup_cons (g : GroupMap) (p : String × JValue) (rest : List (String × JValue)) :
    appendGroup g (p :: rest)
      = appendGroup (alistUpdate g p.1 ((alistLookup g p.1).getD [] ++ valueAsList p.2)) rest := rfl

theorem append_metrics_nil (ret : Agg) : append_metrics ret [] = ret := rfl

theorem append_metrics_cons (ret : Agg) (p : String × JValue) (rest : List (String × JValue)) :
    append_metrics ret (p :: rest)
      = append_metrics
          (match p.2 with
           | .obj items => alistUpdate ret p.1 (appendGroup ((alistLookup ret p.1).getD []) items)
           | _ => ret) rest := rfl

/-- What one group merge leaves under each name: the old series extended by
the source contribution when the source has the name, the old entry
untouched otherwise. Requires the source keys to be duplicate-free, as in
a Python dict. -/
theorem alistLookup_appendGroup (g : GroupMap) (items : List (String × JValue)) (n : String)
    (h : NodupKeys items) :
    alistLookup (appendGroup g items) n = seriesStep (alistLookup g n) (alistLookup items n) := by
  induction items generalizing g with
  | nil => simp [appendGroup_nil, alistLookup_nil, seriesStep]
  | cons p rest ih =>
    obtain ⟨k, v⟩ := p
    have hk : (k : String) ∉ rest.map Prod.fst := by
      simp only [NodupKeys, List.map_cons, List.nodup_cons] at h
      exact h.1
    have htail : NodupKeys rest := by
      simp only [NodupKeys, List.map_cons, List.nodup_cons] at h
      exact h.2
    rw [appendGroup_cons, ih _ htail]
    by_cases hn : k = n
    · subst hn
      have hrest : alistLookup rest k = none :=
        (alistLookup_eq_none_iff rest k).mpr hk
      rw [hrest, alistLookup_cons, if_pos rfl, alistLookup_update_self]
      simp [seriesStep]
    · rw [alistLookup_update_ne _ _ _ _ hn, alistLookup_cons, if_neg hn]

/-- What one `append_metrics` call leaves under each group key: the merged
group when the source holds a dict there, the old entry otherwise. -/
theorem alistLookup_append_metrics (ret : Agg) (metrics : List (String × JValue)) (g : String)
    (h : NodupKeys metrics) :
    alistLookup (append_metrics ret metrics) g
      = groupStep (alistLookup ret g) (alistLookup metrics g) := by
  induction metrics generalizing ret with
  | nil => simp [append_metrics_nil, alistLookup_nil, groupStep]
  | cons p rest ih =>
    obtain ⟨k, v⟩ := p
    have hk : (k : String) ∉ rest.map Prod.fst := by
      simp only [NodupKeys, List.map_cons, List.nodup_cons] at h
      exact h.1
    have htail : NodupKeys rest := by
      simp only [NodupKeys, List.map_cons, List.nodup_cons] at h
      exact h.2
    rw [append_metrics_cons, ih _ htail]
    by_cases hg : k = g
    · subst hg
      have hrest : alistLookup rest k = none :=
        (alistLookup_eq_none_iff rest k).mpr hk
      rw [hrest, alistLookup_cons, if_pos rfl]
      cases v with
      | obj items => simp [groupStep, alistLookup_update_self]
      | null => simp [groupStep]
      | bool b => simp [groupStep]
      | num q => simp [groupStep]
      | str s => simp [groupStep]
      | arr l => simp [groupStep]
    · rw [alistLookup_cons, if_neg hg]
      cases v with
      | obj items => simp only; rw [alistLookup_update_ne _ _ _ _ hg]
      | null => rfl
      | bool b => rfl
      | num q => rfl
      | str s => rfl
      | arr l => rfl

/-- MASTER LEMMA for the aggregator: the series one `append_metrics` call
leaves at any (group, name) pair, as a function of the old series and the
source value for the pair. -/
theorem seriesAt_append_metrics (ret : Agg) (metrics : List (String × JValue)) (g n : String)
    (h : MetricsWF metrics) :
    seriesAt (append_metrics ret metrics) g n
      = seriesStep (seriesAt ret g n) (sourceValueAt metrics g n) := by
  obtain ⟨h1, h2⟩ := h
  unfold seriesAt sourceValueAt
  rw [alistLookup_append_metrics ret metrics g h1]
  cases hm : alistLookup metrics g with
  | none => simp [groupStep, seriesStep]
  | some v =>
    cases v with
    | obj items =>
      have hitems : NodupKeys items := h2 _ (alistLookup_mem hm) items rfl
      simp only [groupStep, Option.some_bind]
      rw [alistLookup_appendGroup _ _ _ hitems]
      cases hr : alistLookup ret g with
      | none => simp [alistLookup_nil]
      | some grp => simp
    | null => simp [groupStep, seriesStep]
    | bool b => simp [groupStep, seriesStep]
    | num q => simp [groupStep, seriesStep]
    | str s => simp [groupStep, seriesStep]
    | arr l => simp [groupStep, seriesStep]

/-! ### Folds of min and max over a sorted list -/

theorem foldl_min_sorted (xs : List ℚ) :
    ∀ x : ℚ, List.Sorted (· ≤ ·) (x :: xs) → xs.foldl min x = x := by
  induction xs with
  | nil => intro x _; rfl
  | cons y ys ih =>
    intro x hs
    have hxy : x ≤ y := (List.sorted_cons.mp hs).1 y (List.mem_cons_self y ys)
    have hs2 : List.Sorted (· ≤ ·) (x :: ys) := by
      rw [List.sorted_cons] at hs ⊢
      exact ⟨fun b hb => hs.1 b (List.mem_cons_of_mem _ hb), hs.2.of_cons⟩
    calc (y :: ys).foldl min x = ys.foldl min (min x y) := rfl
      _ = ys.foldl min x := by rw [min_eq_left hxy]
      _ = x := ih x hs2

theorem foldl_max_sorted (xs : List ℚ) :
    ∀ x : ℚ, List.Sorted (· ≤ ·) (x :: xs) → xs.foldl max x = (x :: xs).getLast (by simp) := by
  induction xs with
  | nil => intro x _; rfl
  | cons y ys ih =>
    intro x hs
    have hxy : x ≤ y := (List.sorted_cons.mp hs).1 y (List.mem_cons_self y ys)
    have hs2 : List.Sorted (· ≤ ·) (y :: ys) := (List.sorted_cons.mp hs).2
    calc (y :: ys).foldl max x = ys.foldl max (max x y) := rfl
      _ = ys.foldl max y := by rw [max_eq_right hxy]
      _ = (y :: ys).getLast (by simp) := ih y hs2
      _ = (x :: y :: ys).getLast (by simp) := (List.getLast_cons (by simp)).symm

theorem pySorted_sorted (l : List ℚ) : List.Sorted (· ≤ ·) (pySorted l) :=
  List.sorted_insertionSort _ l

theorem pySorted_perm (l : List ℚ) : (pySorted l).Perm l :=
  List.perm_insertionSort _ l

theorem pySorted_of_perm {l1 l2 : List ℚ} (h : l1.Perm l2) : pySorted l1 = pySorted l2 :=
  List.eq_of_perm_of_sorted ((pySorted_perm l1).trans (h.trans (pySorted_perm l2).symm))
    (pySorted_sorted l1) (pySorted_sorted l2)

/-! ### Invariants through the folds -/

theorem exFoldl_invariant {σ α ε : Type} (P : σ → Prop) (f : σ → α → Except ε σ)
    (hf : ∀ s a s2, P s → f s a = .ok s2 → P s2) :
    ∀ (l : List α) (s0 s1 : σ), P s0 → exFoldl f s0 l = .ok s1 → P s1 := by
  intro l
  induction l with
  | nil =>
    intro s0 s1 h0 h
    cases h
    exact h0
  | cons x xs ih =>
    intro s0 s1 h0 h
    unfold exFoldl at h
    cases hx : f s0 x with
    | error e => rw [hx] at h; cases h
    | ok s2 =>
      rw [hx] at h
      exact ih s2 s1 (hf s0 x s2 h0 hx) h

theorem nodupKeys_group_of_lookup {ret : Agg} (ha : AggWF ret) (k : String) :
    NodupKeys ((alistLookup ret k).getD []) := by
  cases hl : alistLookup ret k with
  | none => simp [NodupKeys]
  | some grp => exact ha.2 _ (alistLookup_mem hl)

theorem aggWF_update {ret : Agg} {k : String} {grp : GroupMap}
    (ha : AggWF ret) (hgrp : NodupKeys grp) : AggWF (alistUpdate ret k grp) := by
  constructor
  · exact nodup_alistKeys_update ret k grp ha.1
  · intro p hp
    rcases mem_alistUpdate hp with h | h
    · exact ha.2 p h
    · rw [h]
      exact hgrp

theorem nodupKeys_appendGroup {g : GroupMap} (items : List (String × JValue))
    (hg : NodupKeys g) : NodupKeys (appendGroup g items) := by
  induction items generalizing g with
  | nil => exact hg
  | cons p rest ih =>
    rw [appendGroup_cons]
    exact ih (nodup_alistKeys_update _ _ _ hg)

theorem aggWF_append_metrics {ret : Agg} (metrics : List (String × JValue))
    (ha : AggWF ret) : AggWF (append_metrics ret metrics) := by
  induction metrics generalizing ret with
  | nil => exact ha
  | cons p rest ih =>
    rw [append_metrics_cons]
    cases hv : p.2 with
    | obj items =>
      simp only
      exact ih (aggWF_update ha
        (nodupKeys_appendGroup items (nodupKeys_group_of_lookup ha p.1)))
    | null => exact ih ha
    | bool b => exact ih ha
    | num q => exact ih ha
    | str s => exact ih ha
    | arr l => exact ih ha

theorem analyzeInner_WF {ret r : Agg} {s2 : JValue}
    (h : analyzeInner ret s2 = .ok r) (ha : AggWF ret) : AggWF r := by
  unfold analyzeInner at h
  split at h
  · cases h
  · cases h; exact ha
  · split at h
    · cases h
    · split at h
      · cases h; exact aggWF_append_metrics _ ha
      · cases h; exact ha

theorem analyzeOuter_WF {ret r : Agg} {s1 : JValue}
    (h : analyzeOuter ret s1 = .ok r) (ha : AggWF ret) : AggWF r := by
  unfold analyzeOuter at h
  split at h
  · cases h
  · cases h; exact ha
  · split at h
    · cases h
    · split at h
      · cases h
      · exact exFoldl_invariant AggWF analyzeInner
          (fun s a s2 hs hstep => analyzeInner_WF hstep hs) _ ret r ha h

theorem analyze_file_WF {d : JValue} {fa : Agg}
    (h : analyze_file d = .ok fa) : AggWF fa := by
  unfold analyze_file at h
  split at h
  · cases h
  · cases h; exact ⟨List.nodup_nil, by simp⟩
  · split at h
    · cases h
    · split at h
      · cases h
      · exact exFoldl_invariant AggWF analyzeOuter
          (fun s a s2 hs hstep => analyzeOuter_WF hstep hs) _ [] fa
          ⟨List.nodup_nil, by simp⟩ h

theorem aggregate_WF {docs : List JValue} {agg : Agg}
    (h : aggregate docs = .ok agg) : AggWF agg := by
  unfold aggregate at h
  refine exFoldl_invariant AggWF _ ?_ docs [] agg ⟨List.nodup_nil, by simp⟩ h
  intro s a s2 hs hstep
  unfold aggStep at hstep
  cases hfa : analyze_file a with
  | error e => rw [hfa] at hstep; cases hstep
  | ok data =>
    rw [hfa] at hstep
    cases hstep
    exact aggWF_append_metrics _ hs

/-! ### Series nonemptiness through merges -/

theorem valueAsList_ne_nil {v : JValue} (h : v ≠ .arr []) : valueAsList v ≠ [] := by
  cases v with
  | arr l =>
    cases l with
    | nil => exact absurd rfl h
    | cons x xs => simp [valueAsList]
  | null => simp [valueAsList]
  | bool b => simp [valueAsList]
  | num q => simp [valueAsList]
  | str s => simp [valueAsList]
  | obj o => simp [valueAsList]

theorem groupNonempty_appendGroup {g : GroupMap} (items : List (String × JValue))
    (hg : ∀ q ∈ g, q.2 ≠ []) (hitems : ∀ q ∈ items, q.2 ≠ .arr []) :
    ∀ q ∈ appendGroup g items, q.2 ≠ [] := by
  induction items generalizing g with
  | nil => exact hg
  | cons p rest ih =>
    rw [appendGroup_cons]
    refine ih ?_ (fun q hq => hitems q (List.mem_cons_of_mem _ hq))
    intro q hq
    rcases mem_alistUpdate hq with h | h
    · exact hg q h
    · rw [h]
      simp only
      intro hc
      rcases List.append_eq_nil.mp hc with ⟨_, hc2⟩
      exact valueAsList_ne_nil (hitems p (List.mem_cons_self p rest)) hc2

theorem seriesNonempty_append_metrics {ret : Agg} (metrics : List (String × JValue))
    (hret : SeriesNonempty ret) (hm : SrcNoEmptyList metrics) :
    SeriesNonempty (append_metrics ret metrics) := by
  induction metrics generalizing ret with
  | nil => exact hret
  | cons p rest ih =>
    rw [append_metrics_cons]
    have hrest : SrcNoEmptyList rest := fun q hq => hm q (List.mem_cons_of_mem _ hq)
    cases hv : p.2 with
    | obj items =>
      simp only
      refine ih ?_ hrest
      intro q hq
      rcases mem_alistUpdate hq with h | h
      · exact hret q h
      · rw [h]
        simp only
        refine groupNonempty_appendGroup items ?_ ?_
        · intro q2 hq2
          cases hl : alistLookup ret p.1 with
          | none => rw [hl] at hq2; cases hq2
          | some grp =>
            rw [hl] at hq2
            exact hret _ (alistLookup_mem hl) q2 hq2
        · exact hm p (List.mem_cons_self p rest) items hv
    | null => exact ih hret hrest
    | bool b => exact ih hret hrest
    | num q => exact ih hret hrest
    | str s => exact ih hret hrest
    | arr l => exact ih hret hrest

/-! ### Merging a per-file result -/

theorem alistLookup_map_value {α β : Type} (f : α → β) (m : List (String × α)) (k : String) :
    alistLookup (m.map (fun p => (p.1, f p.2))) k = (alistLookup m k).map f := by
  induction m with
  | nil => simp [alistLookup_nil]
  | cons p rest ih =>
    obtain ⟨k0, v0⟩ := p
    by_cases h : k0 = k
    · simp [alistLookup_cons, h]
    · simp [alistLookup_cons, h, ih]

theorem metricsWF_aggToMetrics {data : Agg} (ha : AggWF data) :
    MetricsWF (aggToMetrics data) := by
  constructor
  · have : (aggToMetrics data).map Prod.fst = data.map Prod.fst := by
      simp [aggToMetrics]
    rw [NodupKeys, this]
    exact ha.1
  · intro p hp items hitems
    simp only [aggToMetrics, List.mem_map] at hp
    rcases hp with ⟨q, hq, hpq⟩
    have : p.2 = .obj (q.2.map (fun r => (r.1, .arr r.2))) := by rw [← hpq]
    rw [this] at hitems
    cases hitems
    have : (q.2.map (fun r => (r.1, JValue.arr r.2))).map Prod.fst = q.2.map Prod.fst := by
      simp
    rw [NodupKeys, this]
    exact ha.2 q hq

theorem sourceValueAt_aggToMetrics (data : Agg) (g n : String) :
    sourceValueAt (aggToMetrics data) g n = (seriesAt data g n).map .arr := by
  unfold sourceValueAt aggToMetrics seriesAt
  rw [alistLookup_map_value (fun grp => JValue.obj (grp.map (fun q => (q.1, .arr q.2)))) data g]
  cases alistLookup data g with
  | none => rfl
  | some grp =>
    simp only [Option.map_some, Option.some_bind]
    exact alistLookup_map_value JValue.arr grp n

/-- Merging one per-file result appends its series for every pair onto the
destination series (with `[]` standing for an absent pair). -/
theorem seriesAtD_append_file {ret data : Agg} (g n : String) (hdata : AggWF data) :
    seriesAtD (append_metrics ret (aggToMetrics data)) g n
      = seriesAtD ret g n ++ seriesAtD data g n := by
  unfold seriesAtD
  rw [seriesAt_append_metrics ret _ g n (metricsWF_aggToMetrics hdata),
    sourceValueAt_aggToMetrics]
  cases hs : seriesAt data g n with
  | none => simp [seriesStep]
  | some s =>
    simp only [Option.map_some, seriesStep, valueAsList, Option.getD_some]
    cases seriesAt ret g n <;> simp

/-- Merging one per-file result makes a pair present exactly when it was
present before or the file supplies it. -/
theorem seriesAt_isSome_append_file {ret data : Agg} (g n : String) (hdata : AggWF data) :
    (seriesAt (append_metrics ret (aggToMetrics data)) g n).isSome
      ↔ (seriesAt ret g n).isSome ∨ (seriesAt data g n).isSome := by
  rw [seriesAt_append_metrics ret _ g n (metricsWF_aggToMetrics hdata),
    sourceValueAt_aggToMetrics]
  cases seriesAt data g n with
  | none => simp [seriesStep]
  | some s => simp [seriesStep]

/-! ### The aggregation fold -/

/-- After folding any list of documents onto `ret`, the series at every
pair is the starting series followed by the contribution of each file, in
file order. -/
theorem seriesAtD_exFoldl_aggStep (g n : String) :
    ∀ (docs : List JValue) (ret agg : Agg), exFoldl aggStep ret docs = .ok agg →
      seriesAtD agg g n = seriesAtD ret g n ++ (docs.map (fun d => fileSeriesD d g n)).flatten := by
  intro docs
  induction docs with
  | nil =>
    intro ret agg h
    cases h
    simp
  | cons d ds ih =>
    intro ret agg h
    unfold exFoldl aggStep at h
    cases hfa : analyze_file d with
    | error e => rw [hfa] at h; cases h
    | ok data =>
      rw [hfa] at h
      simp only at h
      rw [ih _ _ h, seriesAtD_append_file g n (analyze_file_WF hfa)]
      simp [fileSeriesD, hfa, List.append_assoc]

/-- A pair is present after the fold exactly when it was present before or
some processed file supplies it. -/
theorem seriesAt_isSome_exFoldl_aggStep (g n : String) :
    ∀ (docs : List JValue) (ret agg : Agg), exFoldl aggStep ret docs = .ok agg →
      ((seriesAt agg g n).isSome = true
        ↔ (seriesAt ret g n).isSome = true
          ∨ ∃ d ∈ docs, ∃ fa, analyze_file d = .ok fa ∧ (seriesAt fa g n).isSome = true) := by
  intro docs
  induction docs with
  | nil =>
    intro ret agg h
    cases h
    simp
  | cons d ds ih =>
    intro ret agg h
    unfold exFoldl aggStep at h
    cases hfa : analyze_file d with
    | error e => rw [hfa] at h; cases h
    | ok data =>
      rw [hfa] at h
      simp only at h
      rw [ih _ _ h, seriesAt_isSome_append_file g n (analyze_file_WF hfa)]
      constructor
      · intro hc
        rcases hc with (hc | hc) | hc
        · exact Or.inl hc
        · exact Or.inr ⟨d, List.mem_cons_self d ds, data, hfa, hc⟩
        · rcases hc with ⟨d2, hd2, fa, hfa2, hsome⟩
          exact Or.inr ⟨d2, List.mem_cons_of_mem _ hd2, fa, hfa2, hsome⟩
      · intro hc
        rcases hc with hc | ⟨d2, hd2, fa, hfa2, hsome⟩
        · exact Or.inl (Or.inl hc)
        · rcases List.mem_cons.mp hd2 with hd | hd
          · subst hd
            rw [hfa] at hfa2
            cases hfa2
            exact Or.inl (Or.inr hsome)
          · exact Or.inr ⟨d2, hd, fa, hfa2, hsome⟩

/-! ### Entries, pairs and the report rows -/

theorem alistLookup_of_mem_nodup {α : Type} {m : List (String × α)} (hm : NodupKeys m)
    {k : String} {v : α} (h : (k, v) ∈ m) : alistLookup m k = some v := by
  induction m with
  | nil => cases h
  | cons p rest ih =>
    obtain ⟨k0, v0⟩ := p
    simp only [NodupKeys, List.map_cons, List.nodup_cons] at hm
    rcases List.mem_cons.mp h with h | h
    · cases h
      rw [alistLookup_cons, if_pos rfl]
    · have hk : k0 ≠ k := by
        intro hc
        subst hc
        exact hm.1 (List.mem_map.mpr ⟨(k0, v), h, rfl⟩)
      rw [alistLookup_cons, if_neg hk]
      exact ih hm.2 h

theorem mem_aggEntries_iff {a : Agg} (ha : AggWF a) (g n : String) (s : Series) :
    (g, n, s) ∈ aggEntries a ↔ seriesAt a g n = some s := by
  induction a with
  | nil => simp [aggEntries, seriesAt, alistLookup_nil]
  | cons p rest ih =>
    obtain ⟨g0, grp⟩ := p
    have hout : (g0 : String) ∉ rest.map Prod.fst := by
      have := ha.1
      simp only [List.map_cons, List.nodup_cons] at this
      exact this.1
    have harest : AggWF rest := by
      refine ⟨?_, fun q hq => ha.2 q (List.mem_cons_of_mem _ hq)⟩
      have := ha.1
      simp only [List.map_cons, List.nodup_cons] at this
      exact this.2
    have hgrp : NodupKeys grp := ha.2 (g0, grp) (List.mem_cons_self _ _)
    simp only [aggEntries, List.mem_append, List.mem_map]
    constructor
    · intro hc
      rcases hc with ⟨q, hq, hqeq⟩ | hc
      · cases hqeq
        unfold seriesAt
        rw [alistLookup_cons, if_pos rfl, Option.some_bind]
        exact alistLookup_of_mem_nodup hgrp hq
      · have hrest := (ih harest).mp hc
        have hgne : g0 ≠ g := by
          intro hc2
          subst hc2
          have hsome : (alistLookup rest g0).isSome = true := by
            unfold seriesAt at hrest
            cases hl : alistLookup rest g0 with
            | none => rw [hl] at hrest; cases hrest
            | some grp2 => simp
          rw [alistLookup_isSome_iff] at hsome
          exact hout hsome
        unfold seriesAt
        rw [alistLookup_cons, if_neg hgne]
        exact hrest
    · intro hc
      unfold seriesAt at hc
      by_cases hg : g0 = g
      · subst hg
        rw [alistLookup_cons, if_pos rfl, Option.some_bind] at hc
        exact Or.inl ⟨(n, s), alistLookup_mem hc, rfl⟩
      · rw [alistLookup_cons, if_neg hg] at hc
        exact Or.inr ((ih harest).mpr hc)

theorem aggPairs_eq_map (a : Agg) :
    aggPairs a = (aggEntries a).map (fun t => (t.1, t.2.1)) := by
  induction a with
  | nil => rfl
  | cons p rest ih =>
    simp only [aggPairs, aggEntries, List.map_append, List.map_map, ih]
    rfl

theorem mem_aggPairs_fst {a : Agg} {g n : String} (h : (g, n) ∈ aggPairs a) :
    g ∈ a.map Prod.fst := by
  induction a with
  | nil => cases h
  | cons p rest ih =>
    simp only [aggPairs, List.mem_append, List.mem_map] at h
    rcases h with ⟨q, _, hqeq⟩ | h
    · cases hqeq
      simp
    · simp [ih h]

theorem aggPairs_nodup {a : Agg} (ha : AggWF a) : (aggPairs a).Nodup := by
  induction a with
  | nil => simp [aggPairs]
  | cons p rest ih =>
    obtain ⟨g0, grp⟩ := p
    have hout : (g0 : String) ∉ rest.map Prod.fst := by
      have := ha.1
      simp only [List.map_cons, List.nodup_cons] at this
      exact this.1
    have harest : AggWF rest := by
      refine ⟨?_, fun q hq => ha.2 q (List.mem_cons_of_mem _ hq)⟩
      have := ha.1
      simp only [List.map_cons, List.nodup_cons] at this
      exact this.2
    have hgrp : NodupKeys grp := ha.2 (g0, grp) (List.mem_cons_self _ _)
    simp only [aggPairs, List.nodup_append]
    refine ⟨?_, ih harest, ?_⟩
    · have : grp.map (fun q => (g0, q.1)) = (grp.map Prod.fst).map (fun n => (g0, n)) := by
        simp [List.map_map]
      rw [this]
      exact hgrp.map (fun x y hxy => (Prod.mk.injEq _ _ _ _).mp hxy |>.2)
    · intro x hx hx2
      simp only [List.mem_map] at hx
      rcases hx with ⟨q, _, hqeq⟩
      subst hqeq
      exact hout (mem_aggPairs_fst hx2)

theorem mem_aggPairs_iff {a : Agg} (ha : AggWF a) (g n : String) :
    (g, n) ∈ aggPairs a ↔ (seriesAt a g n).isSome = true := by
  rw [aggPairs_eq_map]
  constructor
  · intro h
    rcases List.mem_map.mp h with ⟨t, ht, hteq⟩
    obtain ⟨t1, t2, t3⟩ := t
    simp only at hteq
    cases hteq
    rw [(mem_aggEntries_iff ha g n t3).mp ht]
    simp
  · intro h
    cases hs : seriesAt a g n with
    | none => rw [hs] at h; cases h
    | some s =>
      exact List.mem_map.mpr ⟨(g, n, s), (mem_aggEntries_iff ha g n s).mpr hs, rfl⟩

theorem exMapList_ok_map {α β γ ε : Type} {f : α → Except ε β} {pr : β → γ} {q : α → γ}
    (hpq : ∀ x y, f x = .ok y → pr y = q x) :
    ∀ {l : List α} {ys : List β}, exMapList f l = .ok ys → ys.map pr = l.map q := by
  intro l
  induction l with
  | nil => intro ys h; cases h; rfl
  | cons x xs ih =>
    intro ys h
    unfold exMapList at h
    cases hx : f x with
    | error e => rw [hx] at h; cases h
    | ok y =>
      rw [hx] at h
      cases hxs : exMapList f xs with
      | error e => rw [hxs] at h; cases h
      | ok ys2 =>
        rw [hxs] at h
        cases h
        simp [ih hxs, hpq x y hx]

theorem exMapList_mem_iff {α β ε : Type} {f : α → Except ε β} :
    ∀ {l : List α} {ys : List β}, exMapList f l = .ok ys →
      ∀ y, (y ∈ ys ↔ ∃ x ∈ l, f x = .ok y) := by
  intro l
  induction l with
  | nil =>
    intro ys h y
    cases h
    simp
  | cons x xs ih =>
    intro ys h y
    unfold exMapList at h
    cases hx : f x with
    | error e => rw [hx] at h; cases h
    | ok y0 =>
      rw [hx] at h
      cases hxs : exMapList f xs with
      | error e => rw [hxs] at h; cases h
      | ok ys2 =>
        rw [hxs] at h
        cases h
        simp only [List.mem_cons, ih hxs]
        constructor
        · intro hc
          rcases hc with hc | ⟨x2, hx2, hfx2⟩
          · exact ⟨x, Or.inl rfl, by rw [hx, hc]⟩
          · exact ⟨x2, Or.inr hx2, hfx2⟩
        · intro hc
          rcases hc with ⟨x2, hx2 | hx2, hfx2⟩
          · subst hx2
            rw [hx] at hfx2
            cases hfx2
            exact Or.inl rfl
          · exact Or.inr ⟨x2, hx2, hfx2⟩

theorem exMapList_ok_of_all {α β ε : Type} {f : α → Except ε β} :
    ∀ {l : List α}, (∀ x ∈ l, ∃ y, f x = .ok y) → ∃ ys, exMapList f l = .ok ys := by
  intro l
  induction l with
  | nil => intro _; exact ⟨[], rfl⟩
  | cons x xs ih =>
    intro h
    rcases h x (List.mem_cons_self x xs) with ⟨y, hy⟩
    rcases ih (fun x2 hx2 => h x2 (List.mem_cons_of_mem _ hx2)) with ⟨ys, hys⟩
    exact ⟨y :: ys, by unfold exMapList; rw [hy, hys]⟩

theorem exMapList_error_uniform {α β ε : Type} {f : α → Except ε β} {E : ε} :
    ∀ {l : List α}, (∀ x ∈ l, (∃ y, f x = .ok y) ∨ f x = .error E) →
      (∃ x ∈ l, f x = .error E) → exMapList f l = .error E := by
  intro l
  induction l with
  | nil => intro _ h; rcases h with ⟨x, hx, _⟩; cases hx
  | cons x xs ih =>
    intro hall hex
    unfold exMapList
    rcases hall x (List.mem_cons_self x xs) with ⟨y, hy⟩ | hy
    · rw [hy]
      have hex2 : ∃ x2 ∈ xs, f x2 = .error E := by
        rcases hex with ⟨x2, hx2, hfx2⟩
        rcases List.mem_cons.mp hx2 with h | h
        · subst h
          rw [hy] at hfx2
          cases hfx2
        · exact ⟨x2, h, hfx2⟩
      rw [ih (fun x2 hx2 => hall x2 (List.mem_cons_of_mem _ hx2)) hex2]
    · rw [hy]

/-! ### Numeric series -/

theorem asNums_map_num (qs : List ℚ) : asNums (qs.map .num) = some qs := by
  induction qs with
  | nil => rfl
  | cons q rest ih => simp [asNums, ih]

theorem asNums_some_imp : ∀ {l : List JValue} {qs : List ℚ},
    asNums l = some qs → l = qs.map .num := by
  intro l
  induction l with
  | nil =>
    intro qs h
    cases h
    rfl
  | cons v rest ih =>
    intro qs h
    cases v with
    | num q =>
      unfold asNums at h
      cases hr : asNums rest with
      | none => rw [hr] at h; cases h
      | some qs2 =>
        rw [hr] at h
        cases h
        simp [ih hr]
    | null => cases h
    | bool b => cases h
    | str s => cases h
    | arr l2 => cases h
    | obj o => cases h

theorem asNums_isSome_of_all : ∀ {l : List JValue},
    (∀ v ∈ l, ∃ q : ℚ, v = .num q) → ∃ qs, asNums l = some qs := by
  intro l
  induction l with
  | nil => intro _; exact ⟨[], rfl⟩
  | cons v rest ih =>
    intro h
    rcases h v (List.mem_cons_self v rest) with ⟨q, hq⟩
    subst hq
    rcases ih (fun v2 hv2 => h v2 (List.mem_cons_of_mem _ hv2)) with ⟨qs, hqs⟩
    exact ⟨q :: qs, by unfold asNums; rw [hqs]; rfl⟩

theorem asNums_isSome_of_perm {l1 l2 : List JValue} (h : l1.Perm l2) {qs1 : List ℚ}
    (h1 : asNums l1 = some qs1) : ∃ qs2, asNums l2 = some qs2 := by
  have hmap := asNums_some_imp h1
  subst hmap
  refine asNums_isSome_of_all ?_
  intro v hv
  rcases List.mem_map.mp (h.mem_iff.mpr hv) with ⟨q, _, hq⟩
  exact ⟨q, hq.symm⟩

theorem asNums_perm : ∀ {l1 l2 : List JValue}, l1.Perm l2 →
    ∀ {qs1 qs2 : List ℚ}, asNums l1 = some qs1 → asNums l2 = some qs2 → qs1.Perm qs2 := by
  intro l1 l2 hp
  induction hp with
  | nil =>
    intro qs1 qs2 h1 h2
    cases h1
    cases h2
    exact List.Perm.refl []
  | cons x hrest ih =>
    intro qs1 qs2 h1 h2
    cases x with
    | num q =>
      unfold asNums at h1 h2
      cases ht1 : asNums _ with
      | none => rw [ht1] at h1; cases h1
      | some t1 =>
        rw [ht1] at h1
        cases hts : asNums _ with
        | none => rw [hts] at h2; cases h2
        | some t2 =>
          rw [hts] at h2
          cases h1
          cases h2
          exact (ih ht1 hts).cons q
    | null => simp [asNums] at h1
    | bool b => simp [asNums] at h1
    | str s => simp [asNums] at h1
    | arr a => simp [asNums] at h1
    | obj o => simp [asNums] at h1
  | swap x y t =>
    intro qs1 qs2 h1 h2
    cases x with
    | num qx =>
      cases y with
      | num qy =>
        simp only [asNums] at h1 h2
        cases ht : asNums t with
        | none => rw [ht] at h1; simp at h1
        | some ts =>
          rw [ht] at h1 h2
          simp only [Option.map_some'] at h1 h2
          cases h1
          cases h2
          exact List.Perm.swap qx qy ts
      | null => simp [asNums] at h1
      | bool b => simp [asNums] at h1
      | str s => simp [asNums] at h1
      | arr a => simp [asNums] at h1
      | obj o => simp [asNums] at h1
    | null => simp [asNums] at h2
    | bool b => simp [asNums] at h2
    | str s => simp [asNums] at h2
    | arr a => simp [asNums] at h2
    | obj o => simp [asNums] at h2
  | trans h12 h23 ih1 ih2 =>
    intro qs1 qs2 h1 h2
    rcases asNums_isSome_of_perm h12 h1 with ⟨qsm, hqsm⟩
    exact (ih1 h1 hqsm).trans (ih2 hqsm h2)

/-! ### Per-series statistics -/

theorem pySorted_idem (l : List ℚ) : pySorted (pySorted l) = pySorted l :=
  List.Sorted.insertionSort_eq (pySorted_sorted l)

theorem pySorted_length (l : List ℚ) : (pySorted l).length = l.length :=
  (pySorted_perm l).length_eq

theorem seriesStats_perm {l1 l2 : List ℚ} (h : l1.Perm l2) :
    seriesStats l1 = seriesStats l2 := by
  unfold seriesStats
  rw [pySorted_of_perm h]

theorem seriesStatsJ_perm {s1 s2 : Series} (h : s1.Perm s2) :
    seriesStatsJ s1 = seriesStatsJ s2 := by
  unfold seriesStatsJ
  cases h1 : asNums s1 with
  | none =>
    cases h2 : asNums s2 with
    | none => rfl
    | some qs2 =>
      have := asNums_some_imp h2
      subst this
      have hall : ∀ v ∈ s1, ∃ q : ℚ, v = .num q := by
        intro v hv
        rcases List.mem_map.mp (h.mem_iff.mp hv) with ⟨q, _, hq⟩
        exact ⟨q, hq.symm⟩
      rcases asNums_isSome_of_all hall with ⟨qs, hqs⟩
      rw [hqs] at h1
      cases h1
  | some qs1 =>
    cases h2 : asNums s2 with
    | none =>
      have := asNums_some_imp h1
      subst this
      have hall : ∀ v ∈ s2, ∃ q : ℚ, v = .num q := by
        intro v hv
        rcases List.mem_map.mp (h.mem_iff.mpr hv) with ⟨q, _, hq⟩
        exact ⟨q, hq.symm⟩
      rcases asNums_isSome_of_all hall with ⟨qs, hqs⟩
      rw [hqs] at h2
      cases h2
    | some qs2 =>
      simp only
      exact seriesStats_perm (asNums_perm h h1 h2)

theorem pySorted_cons_exists {l : List ℚ} (h2 : 1 ≤ l.length) :
    ∃ x xs, pySorted l = x :: xs := by
  cases hp : pySorted l with
  | nil =>
    exfalso
    have := pySorted_length l
    rw [hp] at this
    simp at this
    omega
  | cons a b => exact ⟨a, b, rfl⟩

/-- Evaluation of the row statistics on a series with at least two
observations, in terms of its sorted copy `x :: xs`. -/
theorem seriesStats_eq_of_sorted_cons {l : List ℚ} {x : ℚ} {xs : List ℚ}
    (hv : pySorted l = x :: xs) (h2 : 2 ≤ l.length) :
    seriesStats l = .ok ⟨xs.foldl min x,
      (if (x :: xs).length % 2 = 1 then (x :: xs).getD ((x :: xs).length / 2) 0
       else ((x :: xs).getD ((x :: xs).length / 2 - 1) 0
         + (x :: xs).getD ((x :: xs).length / 2) 0) / 2),
      (x :: xs).sum / (x :: xs).length,
      ((x :: xs).map (fun y => (y - (x :: xs).sum / (x :: xs).length) ^ 2)).sum
        / (((x :: xs).length : ℚ) - 1),
      xs.foldl max x,
      (x :: xs).length⟩ := by
  have hlen : (x :: xs).length = l.length := by rw [← hv]; exact pySorted_length l
  have hne0 : ¬ (x :: xs).length = 0 := by simp
  have hnlt : ¬ (x :: xs).length < 2 := by omega
  have hidem : pySorted (x :: xs) = x :: xs := by rw [← hv, pySorted_idem]
  unfold seriesStats
  rw [hv]
  unfold pyMin pyMax pyMean pyMedian pyStdevSq
  simp only [hidem, if_neg hne0, if_neg hnlt]
  by_cases hodd : (x :: xs).length % 2 = 1
  · simp only [if_pos hodd]
  · simp only [if_neg hodd]

theorem seriesStats_err_nil :
    seriesStats [] = .error (.valueError "min arg is an empty sequence") := rfl

theorem seriesStats_err_one (x : ℚ) :
    seriesStats [x] = .error (.statisticsError "stdev requires at least two data points") := by
  have h : pySorted [x] = [x] := rfl
  unfold seriesStats
  rw [h]
  unfold pyMin pyMax pyMean pyMedian pyStdevSq
  simp [h]

theorem seriesStats_length_lt {l : List ℚ} (h1 : l ≠ []) (h2 : l.length < 2) :
    seriesStats l = .error (.statisticsError "stdev requires at least two data points") := by
  cases l with
  | nil => exact absurd rfl h1
  | cons x xs =>
    cases xs with
    | nil => exact seriesStats_err_one x
    | cons y ys => simp only [List.length_cons] at h2; omega

/-! ### The report rows -/

theorem reportRowsJ_pairs {a : Agg} {rows : List (String × String × StatRow)}
    (h : reportRowsJ a = .ok rows) :
    rows.map (fun r => (r.1, r.2.1)) = aggPairs a := by
  rw [aggPairs_eq_map]
  refine exMapList_ok_map ?_ h
  intro t y hty
  cases hs : seriesStatsJ t.2.2 with
  | error e =>
    unfold reportRowsJ at h
    rw [hs] at hty
    cases hty
  | ok r =>
    rw [hs] at hty
    cases hty
    rfl

theorem mem_reportRows_iff {a : Agg} {rows : List (String × String × StatRow)}
    (ha : AggWF a) (h : reportRowsJ a = .ok rows) (r : String × String × StatRow) :
    r ∈ rows ↔ ∃ s : Series, seriesAt a r.1 r.2.1 = some s ∧ seriesStatsJ s = .ok r.2.2 := by
  rw [exMapList_mem_iff h r]
  constructor
  · rintro ⟨t, ht, hft⟩
    cases hs : seriesStatsJ t.2.2 with
    | error e => rw [hs] at hft; cases hft
    | ok row =>
      rw [hs] at hft
      cases hft
      exact ⟨t.2.2, (mem_aggEntries_iff ha t.1 t.2.1 t.2.2).mp (by
        obtain ⟨t1, t2, t3⟩ := t
        exact ht), hs⟩
  · rintro ⟨s, hs, hstat⟩
    refine ⟨(r.1, r.2.1, s), (mem_aggEntries_iff ha r.1 r.2.1 s).mpr hs, ?_⟩
    simp only [hstat]

theorem mem_aggEntries {a : Agg} (t : String × String × Series) :
    t ∈ aggEntries a ↔ ∃ p ∈ a, ∃ q ∈ p.2, t = (p.1, q.1, q.2) := by
  induction a with
  | nil => simp [aggEntries]
  | cons p rest ih =>
    simp only [aggEntries, List.mem_append, List.mem_map, ih, List.mem_cons]
    constructor
    · intro hc
      rcases hc with ⟨q, hq, hqeq⟩ | ⟨p2, hp2, q, hq, hqeq⟩
      · exact ⟨p, Or.inl rfl, q, hq, hqeq.symm⟩
      · exact ⟨p2, Or.inr hp2, q, hq, hqeq⟩
    · intro hc
      rcases hc with ⟨p2, hp | hp, q, hq, hqeq⟩
      · subst hp
        exact Or.inl ⟨q, hq, hqeq.symm⟩
      · exact Or.inr ⟨p2, hp, q, hq, hqeq⟩

theorem reportRowsJ_ok_of_all {a : Agg}
    (h : ∀ t ∈ aggEntries a, ∃ row, seriesStatsJ t.2.2 = .ok row) :
    ∃ rows, reportRowsJ a = .ok rows := by
  unfold reportRowsJ
  refine exMapList_ok_of_all ?_
  intro t ht
  rcases h t ht with ⟨row, hrow⟩
  exact ⟨(t.1, t.2.1, row), by rw [hrow]⟩

theorem reportRowsJ_error_uniform {a : Agg} {E : PyErr}
    (hall : ∀ t ∈ aggEntries a, (∃ row, seriesStatsJ t.2.2 = .ok row) ∨ seriesStatsJ t.2.2 = .error E)
    (hex : ∃ t ∈ aggEntries a, seriesStatsJ t.2.2 = .error E) :
    reportRowsJ a = .error E := by
  unfold reportRowsJ
  refine exMapList_error_uniform ?_ ?_
  · intro t ht
    rcases hall t ht with ⟨row, hrow⟩ | hrow
    · exact Or.inl ⟨(t.1, t.2.1, row), by rw [hrow]⟩
    · exact Or.inr (by rw [hrow])
  · rcases hex with ⟨t, ht, hrow⟩
    exact ⟨t, ht, by rw [hrow]⟩

theorem asNums_length {l : List JValue} {qs : List ℚ} (h : asNums l = some qs) :
    qs.length = l.length := by
  rw [asNums_some_imp h, List.length_map]

theorem seriesStats_isOk_of_two_le {l : List ℚ} (h2 : 2 ≤ l.length) :
    ∃ row, seriesStats l = .ok row := by
  obtain ⟨x, xs, hv⟩ := pySorted_cons_exists (by omega) (l := l)
  exact ⟨_, seriesStats_eq_of_sorted_cons hv h2⟩

theorem countP_eq_one_of_nodup_mem {α : Type} [DecidableEq α] {l : List α} {x : α}
    (hn : l.Nodup) (hm : x ∈ l) : l.countP (fun y => y = x) = 1 := by
  induction l with
  | nil => cases hm
  | cons a t ih =>
    rw [List.countP_cons]
    have hht := List.nodup_cons.mp hn
    rcases List.mem_cons.mp hm with h | h
    · subst h
      have hzero : t.countP (fun y => y = x) = 0 := by
        rw [List.countP_eq_zero]
        intro b hb
        simp only [decide_eq_true_iff]
        intro hc
        exact hht.1 (hc ▸ hb)
      simp [hzero]
    · have hax : ¬ (a = x) := fun hc => hht.1 (hc ▸ h)
      rw [ih hht.2 h]
      simp [hax]

/-- Counting a pair among the rows equals counting it among the projected
pairs. -/
theorem pairCount_eq_countP (rows : List (String × String × StatRow)) (g n : String) :
    pairCount rows g n
      = (rows.map (fun r => (r.1, r.2.1))).countP (fun pr => pr = (g, n)) := by
  rw [pairCount, ← List.countP_eq_length_filter, List.countP_map]
  refine List.countP_congr ?_
  intro r _
  simp [Function.comp, Prod.ext_iff]

/-! ## The claims -/

/-- C1: for every series given to the reporter (at least two observations,
so that the computation completes), the statistics are computed from the
ascending-sorted series: minimum is the first sorted element, maximum the
last, the median follows the middle-element-or-average-of-two-middles
rule, the mean is the arithmetic mean, and the squared standard deviation
is the sample variance with denominator count − 1; in particular on
[1, 2, 3, 4, 5] the row reads minimum 1, maximum 5, median 3, mean 3,
count 5, and the standard deviation √(5/2) renders as 1.6 to one decimal
place. -/
theorem c1_reporter_statistics :
    (∀ l : List ℚ, 2 ≤ l.length → ∃ row : StatRow, seriesStats l = .ok row
      ∧ (pySorted l).head? = some row.minimum
      ∧ (pySorted l).getLast? = some row.maximum
      ∧ row.median = (if l.length % 2 = 1 then (pySorted l).getD (l.length / 2) 0
          else ((pySorted l).getD (l.length / 2 - 1) 0 + (pySorted l).getD (l.length / 2) 0) / 2)
      ∧ row.mean = l.sum / l.length
      ∧ row.stdevSq = (l.map (fun y => (y - l.sum / l.length) ^ 2)).sum / ((l.length : ℚ) - 1)
      ∧ row.count = l.length)
    ∧ seriesStats [1, 2, 3, 4, 5] = .ok ⟨1, 3, 3, 5/2, 5, 5⟩
    ∧ stdevRendersTo (5/2) (16/10) := by
  refine ⟨?_, by with_unfolding_all rfl, by norm_num [stdevRendersTo]⟩
  intro l h2
  obtain ⟨x, xs, hv⟩ := pySorted_cons_exists (by omega) (l := l)
  have hsorted : List.Sorted (· ≤ ·) (x :: xs) := hv ▸ pySorted_sorted l
  have hlen : (x :: xs).length = l.length := by rw [← hv]; exact pySorted_length l
  have hsum : (x :: xs).sum = l.sum := by rw [← hv]; exact (pySorted_perm l).sum_eq
  refine ⟨_, seriesStats_eq_of_sorted_cons hv h2, ?_, ?_, ?_, ?_, ?_, ?_⟩
  · rw [hv]
    simp only [List.head?_cons, foldl_min_sorted xs x hsorted]
  · rw [hv, foldl_max_sorted xs x hsorted]
    exact (List.getLast?_eq_getLast (x :: xs) (by simp)).symm
  · simp only [hv, hlen, hsum]
  · simp only [hsum, hlen]
  · simp only [hsum, hlen]
    have hmap : ((x :: xs).map (fun y => (y - l.sum / l.length) ^ 2)).sum
        = (l.map (fun y => (y - l.sum / l.length) ^ 2)).sum := by
      refine List.Perm.sum_eq (List.Perm.map _ ?_)
      rw [← hv]
      exact pySorted_perm l
    rw [hmap]
  · simp only [hlen]

/-- Witness for C1 at the series [1, 2, 3, 4, 5]. -/
theorem c1_reporter_statistics_witness :
    2 ≤ ([1, 2, 3, 4, 5] : List ℚ).length
    ∧ (∃ row : StatRow, seriesStats [1, 2, 3, 4, 5] = .ok row
      ∧ (pySorted [1, 2, 3, 4, 5]).head? = some row.minimum
      ∧ (pySorted [1, 2, 3, 4, 5]).getLast? = some row.maximum
      ∧ row.median = (if ([1, 2, 3, 4, 5] : List ℚ).length % 2 = 1
          then (pySorted [1, 2, 3, 4, 5]).getD (([1, 2, 3, 4, 5] : List ℚ).length / 2) 0
          else ((pySorted [1, 2, 3, 4, 5]).getD (([1, 2, 3, 4, 5] : List ℚ).length / 2 - 1) 0
            + (pySorted [1, 2, 3, 4, 5]).getD (([1, 2, 3, 4, 5] : List ℚ).length / 2) 0) / 2)
      ∧ row.mean = ([1, 2, 3, 4, 5] : List ℚ).sum / ([1, 2, 3, 4, 5] : List ℚ).length
      ∧ row.stdevSq = (([1, 2, 3, 4, 5] : List ℚ).map
          (fun y => (y - ([1, 2, 3, 4, 5] : List ℚ).sum / ([1, 2, 3, 4, 5] : List ℚ).length) ^ 2)).sum
            / ((([1, 2, 3, 4, 5] : List ℚ).length : ℚ) - 1)
      ∧ row.count = ([1, 2, 3, 4, 5] : List ℚ).length) :=
  ⟨by decide, c1_reporter_statistics.1 [1, 2, 3, 4, 5] (by decide)⟩

/-- C2: one `append_metrics` call creates the group key exactly when the
source holds a dict under it, stores under each (group, name) of the
source the old series (empty when the pair is new) followed by the
elements of a sequence value or the single non-sequence value, and leaves
the group binding untouched for a non-dict top-level source value (the
merge is total — no error is possible). -/
theorem c2_aggregator_merge (ret : Agg) (metrics : List (String × JValue))
    (hm : MetricsWF metrics) :
    (∀ g, (alistLookup (append_metrics ret metrics) g).isSome = true
        ↔ ((alistLookup ret g).isSome = true
          ∨ ∃ items, alistLookup metrics g = some (.obj items)))
    ∧ (∀ g items n v, alistLookup metrics g = some (.obj items) →
        alistLookup items n = some v →
        seriesAt (append_metrics ret metrics) g n
          = some ((seriesAt ret g n).getD []
              ++ match v with | .arr elems => elems | w => [w]))
    ∧ (∀ g v, alistLookup metrics g = some v → (∀ items, v ≠ .obj items) →
        alistLookup (append_metrics ret metrics) g = alistLookup ret g) := by
  refine ⟨?_, ?_, ?_⟩
  · intro g
    rw [alistLookup_append_metrics ret metrics g hm.1]
    cases hv : alistLookup metrics g with
    | none => simp [groupStep]
    | some v =>
      cases v with
      | obj items => simp [groupStep]
      | null => simp [groupStep]
      | bool b => simp [groupStep]
      | num q => simp [groupStep]
      | str s => simp [groupStep]
      | arr l => simp [groupStep]
  · intro g items n v hg hn
    have hsrc : sourceValueAt metrics g n = some v := by
      unfold sourceValueAt
      rw [hg]
      exact hn
    rw [seriesAt_append_metrics ret metrics g n hm, hsrc]
    unfold seriesStep
    cases v with
    | arr elems => simp [valueAsList]
    | null => simp [valueAsList]
    | bool b => simp [valueAsList]
    | num q => simp [valueAsList]
    | str s => simp [valueAsList]
    | obj o => simp [valueAsList]
  · intro g v hg hobj
    rw [alistLookup_append_metrics ret metrics g hm.1, hg]
    cases v with
    | obj items => exact absurd rfl (hobj items)
    | null => rfl
    | bool b => rfl
    | num q => rfl
    | str s => rfl
    | arr l => rfl

/-- Witness for C2 on a two-group source merged into a one-pair
destination. -/
theorem c2_aggregator_merge_witness :
    MetricsWF wSrc2
    ∧ ((∀ g, (alistLookup (append_metrics wRet2 wSrc2) g).isSome = true
        ↔ ((alistLookup wRet2 g).isSome = true
          ∨ ∃ items, alistLookup wSrc2 g = some (.obj items)))
    ∧ (∀ g items n v, alistLookup wSrc2 g = some (.obj items) →
        alistLookup items n = some v →
        seriesAt (append_metrics wRet2 wSrc2) g n
          = some ((seriesAt wRet2 g n).getD []
              ++ match v with | .arr elems => elems | w => [w]))
    ∧ (∀ g v, alistLookup wSrc2 g = some v → (∀ items, v ≠ .obj items) →
        alistLookup (append_metrics wRet2 wSrc2) g = alistLookup wRet2 g)) :=
  ⟨by decide, c2_aggregator_merge wRet2 wSrc2 (by decide)⟩

/-- C9: one `append_metrics` call is append-only and frame-preserving —
a pair the source does not supply keeps its series unchanged, and a pair it
does supply gets exactly the old series as an unmodified prefix followed
by the source contribution. -/
theorem c9_merge_frame (ret : Agg) (metrics : List (String × JValue)) (g n : String)
    (hm : MetricsWF metrics) :
    (sourceValueAt metrics g n = none →
      seriesAt (append_metrics ret metrics) g n = seriesAt ret g n)
    ∧ (∀ v, sourceValueAt metrics g n = some v →
      seriesAt (append_metrics ret metrics) g n
        = some ((seriesAt ret g n).getD [] ++ valueAsList v)) := by
  constructor
  · intro hnone
    rw [seriesAt_append_metrics ret metrics g n hm, hnone]
    rfl
  · intro v hsome
    rw [seriesAt_append_metrics ret metrics g n hm, hsome]
    rfl

/-- Witness for C9: the pair ("g", "n") is supplied by the source while
("g", "m") is not. -/
theorem c9_merge_frame_witness :
    MetricsWF wSrc9
    ∧ sourceValueAt wSrc9 "g" "m" = none
    ∧ sourceValueAt wSrc9 "g" "n" = some (.num 5)
    ∧ seriesAt (append_metrics wRet9 wSrc9) "g" "m" = seriesAt wRet9 "g" "m"
    ∧ seriesAt (append_metrics wRet9 wSrc9) "g" "n"
      = some ((seriesAt wRet9 "g" "n").getD [] ++ valueAsList (.num 5)) :=
  ⟨by decide, rfl, rfl,
    (c9_merge_frame wRet9 wSrc9 "g" "m" (by decide)).1 rfl,
    (c9_merge_frame wRet9 wSrc9 "g" "n" (by decide)).2 (.num 5) rfl⟩

/-- C10: no numeric validation happens at merge time — a non-sequence leaf
of any runtime type (string, nested dict, …) is appended verbatim as a
single observation, and `append_metrics` is total, so no error can be
raised. -/
theorem c10_non_numeric_leaf (ret : Agg) (metrics : List (String × JValue)) (g n : String)
    (v : JValue) (hm : MetricsWF metrics) (hv : ∀ elems, v ≠ .arr elems)
    (hsrc : sourceValueAt metrics g n = some v) :
    seriesAt (append_metrics ret metrics) g n
      = some ((seriesAt ret g n).getD [] ++ [v]) := by
  rw [seriesAt_append_metrics ret metrics g n hm, hsrc]
  unfold seriesStep
  cases v with
  | arr elems => exact absurd rfl (hv elems)
  | null => rfl
  | bool b => rfl
  | num q => rfl
  | str s => rfl
  | obj o => rfl

/-- Witness for C10: a string leaf is appended verbatim. -/
theorem c10_non_numeric_leaf_witness :
    MetricsWF wSrc10
    ∧ (∀ elems, JValue.str "oops" ≠ .arr elems)
    ∧ sourceValueAt wSrc10 "g" "n" = some (.str "oops")
    ∧ seriesAt (append_metrics [] wSrc10) "g" "n"
      = some ((seriesAt ([] : Agg) "g" "n").getD [] ++ [.str "oops"]) :=
  ⟨by decide, fun elems h => JValue.noConfusion h, rfl,
    c10_non_numeric_leaf [] wSrc10 "g" "n" (.str "oops") (by decide)
      (fun elems h => JValue.noConfusion h) rfl⟩

/-- C3 counterexample: the pipeline does create an empty series — a
metrics leaf holding an empty list makes `append_metrics` create the
(group, name) entry and extend it with nothing, so the extract-and-merge
of one concrete document yields a mapping with an empty series. -/
theorem c3_counterexample :
    ∃ docs agg, aggregate docs = .ok agg ∧ ¬ SeriesNonempty agg := by
  refine ⟨[wDocEmptyLeaf], [("g", [("n", [])])], rfl, ?_⟩
  intro h
  exact h ("g", [("n", [])]) (List.mem_singleton.mpr rfl)
    ("n", []) (List.mem_singleton.mpr rfl) rfl

/-- C3 amended: after any sequence of merge operations starting from the
empty mapping, every series has at least one observation, provided no
merged source carries an empty sequence as a leaf value (the unguarded
case shown false by the counterexample). -/
theorem c3_nonempty_series (sources : List (List (String × JValue)))
    (h : ∀ m ∈ sources, SrcNoEmptyList m) :
    SeriesNonempty (sources.foldl append_metrics []) := by
  suffices hgen : ∀ (srcs : List (List (String × JValue))) (ret : Agg),
      (∀ m ∈ srcs, SrcNoEmptyList m) → SeriesNonempty ret →
      SeriesNonempty (srcs.foldl append_metrics ret) by
    exact hgen sources [] h (fun p hp => absurd hp (List.not_mem_nil p))
  intro srcs
  induction srcs with
  | nil =>
    intro ret _ hret
    exact hret
  | cons m rest ih =>
    intro ret hall hret
    exact ih _ (fun m2 hm2 => hall m2 (List.mem_cons_of_mem _ hm2))
      (seriesNonempty_append_metrics m hret (hall m (List.mem_cons_self m rest)))

/-- Witness for the amended C3 on two sources sharing a pair. -/
theorem c3_nonempty_series_witness :
    (∀ m ∈ wSources3, SrcNoEmptyList m)
    ∧ SeriesNonempty (wSources3.foldl append_metrics []) :=
  ⟨by decide, c3_nonempty_series wSources3 (by decide)⟩

/-- C5 counterexample: not every well-formed JSON document lacking a
top-level "spaces" field passes through without error — the document `5`
has no fields at all, yet `spaces not in d` raises a TypeError on a
number, so `analyze_file` fails instead of returning the empty mapping. -/
theorem c5_counterexample :
    ¬ (∀ d : JValue, (∀ o, d = .obj o → alistLookup o "spaces" = none) →
        analyze_file d = .ok []) := by
  intro hc
  have h1 := hc (.num 5) (fun o h => by cases h)
  have h2 : analyze_file (.num 5) = .error (.typeError "argument is not iterable") := rfl
  rw [h1] at h2
  cases h2

/-- C5 amended: every JSON **object** document without a "spaces" key
makes `analyze_file` return the empty mapping with no error (so such a
file contributes zero rows); non-object documents can instead raise a
TypeError, as the counterexample shows. -/
theorem c5_no_spaces_key (o : List (String × JValue))
    (h : alistLookup o "spaces" = none) : analyze_file (.obj o) = .ok [] := by
  have hk : "spaces" ∉ alistKeys o := (alistLookup_eq_none_iff o "spaces").mp h
  have hany : (o.any (fun p => p.1 = "spaces")) = false := by
    by_contra hc
    rw [Bool.not_eq_false, List.any_eq_true] at hc
    rcases hc with ⟨p, hp, hpeq⟩
    exact hk (List.mem_map.mpr ⟨p, hp, of_decide_eq_true hpeq⟩)
  have hcont : pyContains (.obj o) "spaces" = .ok false := congrArg Except.ok hany
  unfold analyze_file
  rw [hcont]

/-- Witness for the amended C5 on a concrete spaces-free object. -/
theorem c5_no_spaces_key_witness :
    alistLookup wObj5 "spaces" = none ∧ analyze_file (.obj wObj5) = .ok [] :=
  ⟨rfl, c5_no_spaces_key wObj5 rfl⟩

/-- C6: merging two per-file results that both contain a (group, name)
pair into one destination concatenates the two series, so the combined
count is the sum of the two counts. -/
theorem c6_merge_counts (a1 a2 : Agg) (g n : String) (s1 s2 : Series)
    (h1 : AggWF a1) (h2 : AggWF a2)
    (hs1 : seriesAt a1 g n = some s1) (hs2 : seriesAt a2 g n = some s2) :
    seriesAt (append_metrics (append_metrics [] (aggToMetrics a1)) (aggToMetrics a2)) g n
      = some (s1 ++ s2)
    ∧ (s1 ++ s2).length = s1.length + s2.length := by
  have hstep1 : seriesAt (append_metrics [] (aggToMetrics a1)) g n = some s1 := by
    rw [seriesAt_append_metrics _ _ _ _ (metricsWF_aggToMetrics h1),
      sourceValueAt_aggToMetrics, hs1]
    rfl
  constructor
  · rw [seriesAt_append_metrics _ _ _ _ (metricsWF_aggToMetrics h2),
      sourceValueAt_aggToMetrics, hs2, hstep1]
    rfl
  · exact List.length_append s1 s2

/-- Witness for C6 on two one-group results. -/
theorem c6_merge_counts_witness :
    AggWF wAgg6a ∧ AggWF wAgg6b
    ∧ seriesAt wAgg6a "g" "n" = some [.num 1]
    ∧ seriesAt wAgg6b "g" "n" = some [.num 2, .num 3]
    ∧ (seriesAt (append_metrics (append_metrics [] (aggToMetrics wAgg6a))
          (aggToMetrics wAgg6b)) "g" "n"
        = some (([.num 1] : Series) ++ ([.num 2, .num 3] : Series))
      ∧ (([.num 1] : Series) ++ ([.num 2, .num 3] : Series)).length
          = ([.num 1] : Series).length + ([.num 2, .num 3] : Series).length) :=
  ⟨by decide, by decide, rfl, rfl,
    c6_merge_counts wAgg6a wAgg6b "g" "n" [.num 1] [.num 2, .num 3]
      (by decide) (by decide) rfl rfl⟩

/-- C4 counterexample: a mapping holding an empty series (which the
pipeline can produce, see the C3 counterexample) makes the reporter fail
at the `min` computation with a ValueError, not at the standard-deviation
computation — so "fewer than two observations" does not always fail on
stdev as claimed. -/
theorem c4_counterexample :
    (∃ p ∈ wAggEmptySeries, ∃ q ∈ p.2, q.2.length < 2)
    ∧ reportRowsJ wAggEmptySeries = .error (.valueError "min arg is an empty sequence")
    ∧ reportRowsJ wAggEmptySeries
        ≠ .error (.statisticsError "stdev requires at least two data points") := by
  refine ⟨⟨("g", [("n", [])]), List.mem_singleton.mpr rfl,
    ("n", []), List.mem_singleton.mpr rfl, by decide⟩, rfl, ?_⟩
  intro hc
  have heval : reportRowsJ wAggEmptySeries
      = .error (.valueError "min arg is an empty sequence") := rfl
  rw [heval] at hc
  cases hc

/-- C4 amended: over numeric series, a mapping whose series are all
nonempty but one of which has fewer than two observations makes the
reporter fail with the StatisticsError of the sample-standard-deviation
computation, and a mapping whose series all have at least two
observations reports without failure; an empty series instead fails
earlier, at `min` (see the counterexample). -/
theorem c4_short_series_failure (a : Agg)
    (hnum : ∀ p ∈ a, ∀ q ∈ p.2, (asNums q.2).isSome = true) :
    ((∀ p ∈ a, ∀ q ∈ p.2, q.2 ≠ []) →
      (∃ p ∈ a, ∃ q ∈ p.2, q.2.length < 2) →
      reportRowsJ a = .error (.statisticsError "stdev requires at least two data points"))
    ∧ ((∀ p ∈ a, ∀ q ∈ p.2, 2 ≤ q.2.length) →
      ∃ rows, reportRowsJ a = .ok rows) := by
  constructor
  · intro hne hex
    have hentry : ∀ p ∈ a, ∀ q ∈ p.2, q.2.length < 2 →
        seriesStatsJ q.2 = .error (.statisticsError "stdev requires at least two data points") := by
      intro p hp q hq hlt
      have hiso := hnum p hp q hq
      cases hqs : asNums q.2 with
      | none => rw [hqs] at hiso; cases hiso
      | some qs =>
        have hlen : qs.length = q.2.length := asNums_length hqs
        unfold seriesStatsJ
        rw [hqs]
        refine seriesStats_length_lt ?_ (by omega)
        intro hnil
        rw [hnil] at hlen
        exact hne p hp q hq (List.length_eq_zero.mp hlen.symm)
    refine reportRowsJ_error_uniform ?_ ?_
    · intro t ht
      rcases (mem_aggEntries t).mp ht with ⟨p, hp, q, hq, hteq⟩
      subst hteq
      dsimp only
      by_cases hlt : q.2.length < 2
      · exact Or.inr (hentry p hp q hq hlt)
      · have hiso := hnum p hp q hq
        cases hqs : asNums q.2 with
        | none => rw [hqs] at hiso; cases hiso
        | some qs =>
          refine Or.inl ?_
          unfold seriesStatsJ
          rw [hqs]
          exact seriesStats_isOk_of_two_le (by rw [asNums_length hqs]; omega)
    · rcases hex with ⟨p, hp, q, hq, hlt⟩
      exact ⟨(p.1, q.1, q.2), (mem_aggEntries _).mpr ⟨p, hp, q, hq, rfl⟩,
        hentry p hp q hq hlt⟩
  · intro h2
    refine reportRowsJ_ok_of_all ?_
    intro t ht
    rcases (mem_aggEntries t).mp ht with ⟨p, hp, q, hq, hteq⟩
    subst hteq
    dsimp only
    have hiso := hnum p hp q hq
    cases hqs : asNums q.2 with
    | none => rw [hqs] at hiso; cases hiso
    | some qs =>
      unfold seriesStatsJ
      rw [hqs]
      exact seriesStats_isOk_of_two_le (by rw [asNums_length hqs]; exact h2 p hp q hq)

/-- Witness for the amended C4 on two concrete mappings. -/
theorem c4_short_series_failure_witness :
    (∀ p ∈ wAgg4, ∀ q ∈ p.2, (asNums q.2).isSome = true)
    ∧ (∀ p ∈ wAgg4b, ∀ q ∈ p.2, (asNums q.2).isSome = true)
    ∧ ((∀ p ∈ wAgg4, ∀ q ∈ p.2, q.2 ≠ []) →
      (∃ p ∈ wAgg4, ∃ q ∈ p.2, q.2.length < 2) →
      reportRowsJ wAgg4 = .error (.statisticsError "stdev requires at least two data points"))
    ∧ ((∀ p ∈ wAgg4b, ∀ q ∈ p.2, 2 ≤ q.2.length) →
      ∃ rows, reportRowsJ wAgg4b = .ok rows) :=
  ⟨by decide, by decide,
    (c4_short_series_failure wAgg4 (by decide)).1,
    (c4_short_series_failure wAgg4b (by decide)).2⟩

/-- C7: when aggregation and reporting both complete, a (group, name)
pair supplied by at least one input document appears exactly once among
the report rows, and a pair supplied by no document appears in no row. -/
theorem c7_rows_exactly_once (docs : List JValue) (agg : Agg)
    (rows : List (String × String × StatRow)) (g n : String)
    (hagg : aggregate docs = .ok agg) (hrows : reportRowsJ agg = .ok rows) :
    ((∃ d ∈ docs, ∃ fa, analyze_file d = .ok fa ∧ (seriesAt fa g n).isSome = true) →
      pairCount rows g n = 1)
    ∧ ((¬ ∃ d ∈ docs, ∃ fa, analyze_file d = .ok fa ∧ (seriesAt fa g n).isSome = true) →
      pairCount rows g n = 0) := by
  have hwf : AggWF agg := aggregate_WF hagg
  have hmap : rows.map (fun r => (r.1, r.2.1)) = aggPairs agg := reportRowsJ_pairs hrows
  have hiff := seriesAt_isSome_exFoldl_aggStep g n docs [] agg hagg
  have hnil : (seriesAt ([] : Agg) g n).isSome = false := rfl
  rw [hnil] at hiff
  constructor
  · intro hex
    have hsome : (seriesAt agg g n).isSome = true := hiff.mpr (Or.inr hex)
    rw [pairCount_eq_countP, hmap]
    exact countP_eq_one_of_nodup_mem (aggPairs_nodup hwf)
      ((mem_aggPairs_iff hwf g n).mpr hsome)
  · intro hnex
    rw [pairCount_eq_countP, hmap, List.countP_eq_zero]
    intro pr hmem
    simp only [decide_eq_true_iff]
    intro hc
    subst hc
    rcases hiff.mp ((mem_aggPairs_iff hwf g n).mp hmem) with hfalse | hex
    · cases hfalse
    · exact hnex hex

/-- Witness for C7 on one document supplying ("nom", "total"). -/
theorem c7_rows_exactly_once_witness :
    aggregate [wDoc7] = .ok [("nom", [("total", [.num 1, .num 2])])]
    ∧ reportRowsJ [("nom", [("total", [.num 1, .num 2])])]
        = .ok [("nom", "total", ⟨1, 3/2, 3/2, 1/2, 2, 2⟩)]
    ∧ (((∃ d ∈ [wDoc7], ∃ fa, analyze_file d = .ok fa
          ∧ (seriesAt fa "nom" "total").isSome = true) →
        pairCount [("nom", "total", ⟨1, 3/2, 3/2, 1/2, 2, 2⟩)] "nom" "total" = 1)
      ∧ ((¬ ∃ d ∈ [wDoc7], ∃ fa, analyze_file d = .ok fa
          ∧ (seriesAt fa "nom" "total").isSome = true) →
        pairCount [("nom", "total", ⟨1, 3/2, 3/2, 1/2, 2, 2⟩)] "nom" "total" = 0)) :=
  ⟨rfl, by with_unfolding_all rfl,
    c7_rows_exactly_once [wDoc7] [("nom", [("total", [.num 1, .num 2])])]
      [("nom", "total", ⟨1, 3/2, 3/2, 1/2, 2, 2⟩)] "nom" "total"
      rfl (by with_unfolding_all rfl)⟩

/-- C8 counterexample: the report is not a function of the set of input
files alone — the same two documents processed in the two discovery orders
(both possible for one directory, since traversal order is not guaranteed)
give reports with the rows in different orders, hence different bytes. -/
theorem c8_counterexample :
    ∃ docs1 docs2 : List JValue, docs1.Perm docs2
      ∧ analyze_files docs1 ≠ analyze_files docs2 := by
  refine ⟨[wDocA, wDocB], [wDocB, wDocA], List.Perm.swap wDocB wDocA [], ?_⟩
  have h1 : analyze_files [wDocA, wDocB]
      = .ok [("a", "x", ⟨1, 3/2, 3/2, 1/2, 2, 2⟩), ("b", "y", ⟨1, 3/2, 3/2, 1/2, 2, 2⟩)] := by
    with_unfolding_all rfl
  have h2 : analyze_files [wDocB, wDocA]
      = .ok [("b", "y", ⟨1, 3/2, 3/2, 1/2, 2, 2⟩), ("a", "x", ⟨1, 3/2, 3/2, 1/2, 2, 2⟩)] := by
    with_unfolding_all rfl
  rw [h1, h2]
  intro hc
  injection hc with hc2
  injection hc2 with hc3
  exact absurd (congrArg (fun r => r.1) hc3) (by decide)

/-- C8 amended: on permuted document lists (the same file multiset in two
discovery orders), completed runs produce the same rows up to order — the
pair set and every per-pair statistic agree, only the row order may
differ; byte-identical output additionally needs identical discovery
order. -/
theorem c8_rows_permutation (docs1 docs2 : List JValue) (agg1 agg2 : Agg)
    (rows1 rows2 : List (String × String × StatRow))
    (hp : docs1.Perm docs2)
    (h1 : aggregate docs1 = .ok agg1) (h2 : aggregate docs2 = .ok agg2)
    (hr1 : reportRowsJ agg1 = .ok rows1) (hr2 : reportRowsJ agg2 = .ok rows2) :
    rows1.Perm rows2 := by
  have w1 : AggWF agg1 := aggregate_WF h1
  have w2 : AggWF agg2 := aggregate_WF h2
  have hiff : ∀ g n, (seriesAt agg1 g n).isSome = true ↔ (seriesAt agg2 g n).isSome = true := by
    intro g n
    have ha := seriesAt_isSome_exFoldl_aggStep g n docs1 [] agg1 h1
    have hb := seriesAt_isSome_exFoldl_aggStep g n docs2 [] agg2 h2
    have hnil : (seriesAt ([] : Agg) g n).isSome = false := rfl
    rw [hnil] at ha hb
    rw [ha, hb]
    constructor
    · rintro (hfalse | ⟨d, hd, fa, hfa, hsome⟩)
      · cases hfalse
      · exact Or.inr ⟨d, hp.mem_iff.mp hd, fa, hfa, hsome⟩
    · rintro (hfalse | ⟨d, hd, fa, hfa, hsome⟩)
      · cases hfalse
      · exact Or.inr ⟨d, hp.mem_iff.mpr hd, fa, hfa, hsome⟩
  have hserp : ∀ g n, (seriesAtD agg1 g n).Perm (seriesAtD agg2 g n) := by
    intro g n
    rw [seriesAtD_exFoldl_aggStep g n docs1 [] agg1 h1,
      seriesAtD_exFoldl_aggStep g n docs2 [] agg2 h2]
    have hnil : seriesAtD ([] : Agg) g n = [] := rfl
    rw [hnil, List.nil_append, List.nil_append]
    exact (hp.map (fun d => fileSeriesD d g n)).flatten
  have hn1 : rows1.Nodup := by
    have hpn := aggPairs_nodup w1
    rw [← reportRowsJ_pairs hr1] at hpn
    exact List.Nodup.of_map _ hpn
  have hn2 : rows2.Nodup := by
    have hpn := aggPairs_nodup w2
    rw [← reportRowsJ_pairs hr2] at hpn
    exact List.Nodup.of_map _ hpn
  rw [List.perm_ext_iff_of_nodup hn1 hn2]
  intro r
  rw [mem_reportRows_iff w1 hr1 r, mem_reportRows_iff w2 hr2 r]
  constructor
  · rintro ⟨s, hs, hstat⟩
    have hsome2 : (seriesAt agg2 r.1 r.2.1).isSome = true :=
      (hiff r.1 r.2.1).mp (by rw [hs]; rfl)
    cases hs2 : seriesAt agg2 r.1 r.2.1 with
    | none => rw [hs2] at hsome2; cases hsome2
    | some s2 =>
      refine ⟨s2, rfl, ?_⟩
      have hper : s.Perm s2 := by
        have hq := hserp r.1 r.2.1
        unfold seriesAtD at hq
        rw [hs, hs2] at hq
        exact hq
      rw [← seriesStatsJ_perm hper]
      exact hstat
  · rintro ⟨s, hs, hstat⟩
    have hsome1 : (seriesAt agg1 r.1 r.2.1).isSome = true :=
      (hiff r.1 r.2.1).mpr (by rw [hs]; rfl)
    cases hs1 : seriesAt agg1 r.1 r.2.1 with
    | none => rw [hs1] at hsome1; cases hsome1
    | some s1 =>
      refine ⟨s1, rfl, ?_⟩
      have hper : s1.Perm s := by
        have hq := hserp r.1 r.2.1
        unfold seriesAtD at hq
        rw [hs1, hs] at hq
        exact hq
      rw [seriesStatsJ_perm hper]
      exact hstat

/-- Witness for the amended C8 on the two orders of two documents. -/
theorem c8_rows_permutation_witness :
    ([wDocA, wDocB] : List JValue).Perm [wDocB, wDocA]
    ∧ aggregate [wDocA, wDocB]
        = .ok [("a", [("x", [.num 1, .num 2])]), ("b", [("y", [.num 1, .num 2])])]
    ∧ aggregate [wDocB, wDocA]
        = .ok [("b", [("y", [.num 1, .num 2])]), ("a", [("x", [.num 1, .num 2])])]
    ∧ reportRowsJ [("a", [("x", [.num 1, .num 2])]), ("b", [("y", [.num 1, .num 2])])]
        = .ok [("a", "x", ⟨1, 3/2, 3/2, 1/2, 2, 2⟩), ("b", "y", ⟨1, 3/2, 3/2, 1/2, 2, 2⟩)]
    ∧ reportRowsJ [("b", [("y", [.num 1, .num 2])]), ("a", [("x", [.num 1, .num 2])])]
        = .ok [("b", "y", ⟨1, 3/2, 3/2, 1/2, 2, 2⟩), ("a", "x", ⟨1, 3/2, 3/2, 1/2, 2, 2⟩)]
    ∧ ([("a", "x", (⟨1, 3/2, 3/2, 1/2, 2, 2⟩ : StatRow)), ("b", "y", ⟨1, 3/2, 3/2, 1/2, 2, 2⟩)] :
        List (String × String × StatRow)).Perm
        [("b", "y", ⟨1, 3/2, 3/2, 1/2, 2, 2⟩), ("a", "x", ⟨1, 3/2, 3/2, 1/2, 2, 2⟩)] :=
  ⟨List.Perm.swap wDocB wDocA [], rfl, rfl,
    by with_unfolding_all rfl, by with_unfolding_all rfl,
    c8_rows_permutation [wDocA, wDocB] [wDocB, wDocA] _ _ _ _
      (List.Perm.swap wDocB wDocA []) rfl rfl
      (by with_unfolding_all rfl) (by with_unfolding_all rfl)⟩
